import Mathlib

/-! Verification of the springer-recommendations similarity pipeline
    (src/recommendations.py) against its natural-language specification.

    Modelling conventions.
    * Python floats (Jaccard scores, random tiebreaks) are modelled as `ℚ`.
      The code only builds them from integer counts (`intersection /
      (intersection + difference)`) and compares them, so the ordering
      behaviour — the only thing the algorithms consume — is that of `ℚ`.
    * `stash.sorted` shells out to GNU `sort -u`, and `postprocess` uses
      Python's `list.sort`; both are stable sorts, and per spec §4.1 the
      serialized row encoding makes lexicographic order on serialized lines
      match the logical key order.  A stable sort's output is uniquely
      determined by the comparator, so `List.insertionSort` (structurally
      recursive, hence kernel-evaluable) is an exact model of both.
    * Machine integers (doi/user ids) are `ℕ`; the rec-slot sentinel `-1`
      forces `ℤ` for stored candidate ids.
    * Fallible operations (`ZeroDivisionError` in `jaccard_similarity`,
      the uncaught `StopIteration` in `unnumber`) return `Option`.
    * `random.getrandbits`/`random.random`/`hash` are injected parameters
      (spec §6 `random_seed_source`): each round carries the seeded hash
      function and the sequence of tiebreak draws.
-/

set_option maxHeartbeats 1600000

/-- The string order used by the model, via the character list.  Lean's
`String.lt` is *defined* as `·.data < ·.data`, but its built-in decision
procedure works on byte positions the kernel cannot evaluate, so the model
compares the lists directly. -/
def strLE (a b : String) : Prop := a.data ≤ b.data

instance strLE.decRel : DecidableRel strLE :=
  fun a b => inferInstanceAs (Decidable (a.data ≤ b.data))

instance strLE.totalRel : IsTotal String strLE := ⟨fun a b => le_total a.data b.data⟩

instance strLE.transRel : IsTrans String strLE := ⟨fun _ _ _ h1 h2 => le_trans h1 h2⟩

instance strLE.antisymmRel : IsAntisymm String strLE :=
  ⟨fun _ _ h1 h2 => String.ext (le_antisymm h1 h2)⟩

/-- The order GNU `sort` sees on serialized (user_key, item_key) rows:
lexicographic on the two columns (spec §4.1: serialized order matches logical
key order). -/
def rawEdgeLE (a b : String × String) : Prop :=
  a.1.data < b.1.data ∨ (a.1 = b.1 ∧ a.2.data ≤ b.2.data)

instance rawEdgeLE.decRel : DecidableRel rawEdgeLE := fun _ _ => by
  unfold rawEdgeLE; infer_instance

instance rawEdgeLE.totalRel : IsTotal (String × String) rawEdgeLE := by
  constructor
  intro a b
  rcases lt_trichotomy a.1.data b.1.data with h | h | h
  · exact Or.inl (Or.inl h)
  · rcases le_total a.2.data b.2.data with h2 | h2
    · exact Or.inl (Or.inr ⟨String.ext h, h2⟩)
    · exact Or.inr (Or.inr ⟨(String.ext h).symm, h2⟩)
  · exact Or.inr (Or.inl h)

instance rawEdgeLE.transRel : IsTrans (String × String) rawEdgeLE := by
  constructor
  rintro a b c (h1 | ⟨h1, h1'⟩) (h2 | ⟨h2, h2'⟩)
  · exact Or.inl (h1.trans h2)
  · exact Or.inl (h2 ▸ h1)
  · exact Or.inl (h1 ▸ h2)
  · exact Or.inr ⟨h1.trans h2, h1'.trans h2'⟩

instance rawEdgeLE.antisymmRel : IsAntisymm (String × String) rawEdgeLE := by
  constructor
  rintro ⟨a1, a2⟩ ⟨b1, b2⟩ (h1 | ⟨h1, h1'⟩) (h2 | ⟨h2, h2'⟩) <;> simp_all
  · exact absurd (h1.trans h2) (lt_irrefl _)
  · exact String.ext (le_antisymm h1' h2')

/-- The order GNU `sort` sees on serialized (item_key, user_id) rows, after
the first compaction pass replaced user keys by integers. -/
def compEdgeLE (a b : String × ℕ) : Prop :=
  a.1.data < b.1.data ∨ (a.1 = b.1 ∧ a.2 ≤ b.2)

instance compEdgeLE.decRel : DecidableRel compEdgeLE := fun _ _ => by
  unfold compEdgeLE; infer_instance

instance compEdgeLE.totalRel : IsTotal (String × ℕ) compEdgeLE := by
  constructor
  intro a b
  rcases lt_trichotomy a.1.data b.1.data with h | h | h
  · exact Or.inl (Or.inl h)
  · rcases le_total a.2 b.2 with h2 | h2
    · exact Or.inl (Or.inr ⟨String.ext h, h2⟩)
    · exact Or.inr (Or.inr ⟨(String.ext h).symm, h2⟩)
  · exact Or.inr (Or.inl h)

instance compEdgeLE.transRel : IsTrans (String × ℕ) compEdgeLE := by
  constructor
  rintro a b c (h1 | ⟨h1, h1'⟩) (h2 | ⟨h2, h2'⟩)
  · exact Or.inl (h1.trans h2)
  · exact Or.inl (h2 ▸ h1)
  · exact Or.inl (h1 ▸ h2)
  · exact Or.inr ⟨h1.trans h2, h1'.trans h2'⟩

instance compEdgeLE.antisymmRel : IsAntisymm (String × ℕ) compEdgeLE := by
  constructor
  rintro ⟨a1, a2⟩ ⟨b1, b2⟩ (h1 | ⟨h1, h1'⟩) (h2 | ⟨h2, h2'⟩) <;> simp_all
  · exact absurd (h1.trans h2) (lt_irrefl _)
  · exact Nat.le_antisymm h1' h2'

/-- `stash.sorted` (recommendations.py lines 31-40): `sort -T … -u`, an
external stable sort of the serialized rows that drops exact duplicate lines.
`r` is the serialized-line order. -/
def stash.sorted {α : Type} [DecidableEq α] (r : α → α → Prop) [DecidableRel r]
    (rows : List α) : List α :=
  (rows.insertionSort r).dedup

/-- `grouped` (lines 60-62): `itertools.groupby(rows, itemgetter(0))` — maximal
consecutive runs sharing a key, each run paired with its key.  (Written as a
right fold so that it is structurally recursive; it produces exactly the
maximal consecutive runs.) -/
def grouped {ρ α : Type} [DecidableEq α] (key : ρ → α) : List ρ → List (α × List ρ)
  | [] => []
  | r :: rs =>
    match grouped key rs with
    | [] => [(key r, [r])]
    | (k, run) :: rest =>
      if key r = k then (k, r :: run) :: rest
      else (key r, [r]) :: (k, run) :: rest

/-- The label-cursor advance inside `numbered` (lines 70-72): pop labels until
the cursor equals the row key, counting positions.  `none` is `labels.next()`
raising `StopIteration`. -/
def labelSeek {α : Type} [DecidableEq α] (k : α) : α → ℕ → List α → Option (ℕ × α × List α)
  | label, index, [] => if label = k then some (index, label, []) else none
  | label, index, l :: ls =>
    if label = k then some (index, label, l :: ls) else labelSeek k l (index + 1) ls

/-- The row loop of `numbered`.  A `StopIteration` from `labels.next()` arises
inside a generator, so it silently ends the output (truncation, not an
error). -/
def numberedAux {α β : Type} [DecidableEq α] : α → ℕ → List α → List (α × β) → List (ℕ × β)
  | _, _, _, [] => []
  | label, index, labels, (k, b) :: rows =>
    match labelSeek k label index labels with
    | none => []
    | some (index', label', labels') => (index', b) :: numberedAux label' index' labels' rows

/-- `numbered` (lines 64-74): replace each row's first column by its index in
`labels`; assumes both streams sorted.  The generator starts with
`labels.next()`, so an empty label list yields an empty output. -/
def numbered {α β : Type} [DecidableEq α] (rows : List (α × β)) (labels : List α) :
    List (ℕ × β) :=
  match labels with
  | [] => []
  | l :: ls => numberedAux l 0 ls rows

/-- The index-cursor advance inside `unnumber` (lines 82-84). -/
def indexSeek {α : Type} (target : ℕ) : ℕ → α → List α → Option (ℕ × α × List α)
  | index, label, [] => if index = target then some (index, label, []) else none
  | index, label, l :: ls =>
    if index = target then some (index, label, l :: ls) else indexSeek target (index + 1) l ls

/-- The row loop of `unnumber`.  Here `labels.next()` raising `StopIteration`
escapes a plain function, so it aborts the whole call (`none`). -/
def unnumberAux {α β : Type} : ℕ → α → List α → List (ℕ × β) → Option (List (α × β))
  | _, _, _, [] => some []
  | index, label, labels, (i, b) :: rows =>
    match indexSeek i index label labels with
    | none => none
    | some (index', label', labels') =>
      (unnumberAux index' label' labels' rows).map (fun rest => (label', b) :: rest)

/-- `unnumber` (lines 76-85): replace each row's id column by `labels[id]`,
walking both sorted streams in lock step.  The initial `labels.next()` runs
before the row loop, so an empty label list always aborts. -/
def unnumber {α β : Type} (rows : List (ℕ × β)) (labels : List α) :
    Option (List (α × β)) :=
  match labels with
  | [] => none
  | l :: ls => unnumberAux 0 l ls rows

/-- `preprocess` (lines 87-104): dedup the raw (user, doi) edges and replace
both string columns by their dense sorted-rank ids.  Returns
(raw_dois, edges) with edges as (doi_id, user_id) pairs. -/
def preprocess (raw_edges : List (String × String)) : List String × List (ℕ × ℕ) :=
  let raw_users := stash.sorted strLE (raw_edges.map Prod.fst)
  let raw_dois := stash.sorted strLE (raw_edges.map Prod.snd)
  let e1 := numbered (stash.sorted rawEdgeLE raw_edges) raw_users
  let e2 := e1.map (fun p => (p.2, p.1))
  let e3 := numbered (stash.sorted compEdgeLE e2) raw_dois
  (raw_dois, e3)

/-- The merge loop of `jaccard_similarity` (lines 108-123) while the first
pointer rests on `u1` (the loop is split into two nested structural
recursions so the kernel can evaluate it; the recursion tree is the
original's).  The `[]` case is the loop exit `j = len(users2)` adding the
remaining `len(users1) - i` elements to `difference`. -/
def jaccardGo (u1 : ℕ) (users1 : List ℕ) (f : List ℕ → ℕ × ℕ) : List ℕ → ℕ × ℕ
  | [] => (0, users1.length + 1)
  | u2 :: users2 =>
    if u1 < u2 then
      let p := f (u2 :: users2); (p.1, p.2 + 1)
    else if u2 < u1 then
      let p := jaccardGo u1 users1 f users2; (p.1, p.2 + 1)
    else
      let p := f users2; (p.1 + 1, p.2)

/-- The counters (intersection, difference) computed by the merge loop of
`jaccard_similarity`, the final
`difference += (len(users1) - i) + (len(users2) - j)` included. -/
def jaccardCounts : List ℕ → List ℕ → ℕ × ℕ
  | [] => fun users2 => (0, users2.length)
  | u1 :: users1 => jaccardGo u1 users1 (jaccardCounts users1)

/-- `jaccard_similarity` (lines 106-124):
`intersection / (intersection + difference)`; `none` models the unguarded
`ZeroDivisionError` when both counters are zero.  The quotient is written
`mkRat i (i + d)` — the exact rational `i / (i + d)` (`Rat.mkRat_eq_div`) —
because Batteries marks `Rat.div` irreducible, which would block kernel
evaluation of the model. -/
def jaccard_similarity (users1 users2 : List ℕ) : Option ℚ :=
  let p := jaccardCounts users1 users2
  if p.1 + p.2 = 0 then none
  else some (mkRat (p.1 : ℤ) (p.1 + p.2))

/-- A round-scoped bucket `[minhash, random, doi, users]` (line 146). -/
abbrev Bucket : Type := ℤ × ℚ × ℕ × List ℕ

/-- Python's element-wise list comparison on buckets (line 136 `buckets.sort()`
compares [minhash, random, doi, users] lexicographically; the users component
compares as a lexicographic sequence). -/
def bucketLE (a b : Bucket) : Prop :=
  a.1 < b.1 ∨ a.1 = b.1 ∧
    (a.2.1 < b.2.1 ∨ a.2.1 = b.2.1 ∧
      (a.2.2.1 < b.2.2.1 ∨ a.2.2.1 = b.2.2.1 ∧ a.2.2.2 ≤ b.2.2.2))

instance bucketLE.decRel : DecidableRel bucketLE := fun _ _ => by
  unfold bucketLE; infer_instance

instance bucketLE.totalRel : IsTotal Bucket bucketLE := by
  constructor
  intro a b
  rcases lt_trichotomy a.1 b.1 with h | h | h
  · exact Or.inl (Or.inl h)
  · rcases lt_trichotomy a.2.1 b.2.1 with h2 | h2 | h2
    · exact Or.inl (Or.inr ⟨h, Or.inl h2⟩)
    · rcases lt_trichotomy a.2.2.1 b.2.2.1 with h3 | h3 | h3
      · exact Or.inl (Or.inr ⟨h, Or.inr ⟨h2, Or.inl h3⟩⟩)
      · rcases le_total a.2.2.2 b.2.2.2 with h4 | h4
        · exact Or.inl (Or.inr ⟨h, Or.inr ⟨h2, Or.inr ⟨h3, h4⟩⟩⟩)
        · exact Or.inr (Or.inr ⟨h.symm, Or.inr ⟨h2.symm, Or.inr ⟨h3.symm, h4⟩⟩⟩)
      · exact Or.inr (Or.inr ⟨h.symm, Or.inr ⟨h2.symm, Or.inl h3⟩⟩)
    · exact Or.inr (Or.inr ⟨h.symm, Or.inl h2⟩)
  · exact Or.inr (Or.inl h)

instance bucketLE.transRel : IsTrans Bucket bucketLE := by
  constructor
  rintro a b c
    (h1 | ⟨e1, h1 | ⟨e1', h1 | ⟨e1'', h1⟩⟩⟩) (h2 | ⟨e2, h2 | ⟨e2', h2 | ⟨e2'', h2⟩⟩⟩) <;>
    [ exact Or.inl (h1.trans h2);
      exact Or.inl (e2 ▸ h1);
      exact Or.inl (e2 ▸ h1);
      exact Or.inl (e2 ▸ h1);
      exact Or.inl (e1 ▸ h2);
      exact Or.inr ⟨e1.trans e2, Or.inl (h1.trans h2)⟩;
      exact Or.inr ⟨e1.trans e2, Or.inl (e2' ▸ h1)⟩;
      exact Or.inr ⟨e1.trans e2, Or.inl (e2' ▸ h1)⟩;
      exact Or.inl (e1 ▸ h2);
      exact Or.inr ⟨e1.trans e2, Or.inl (e1' ▸ h2)⟩;
      exact Or.inr ⟨e1.trans e2, Or.inr ⟨e1'.trans e2', Or.inl (h1.trans h2)⟩⟩;
      exact Or.inr ⟨e1.trans e2, Or.inr ⟨e1'.trans e2', Or.inl (e2'' ▸ h1)⟩⟩;
      exact Or.inl (e1 ▸ h2);
      exact Or.inr ⟨e1.trans e2, Or.inl (e1' ▸ h2)⟩;
      exact Or.inr ⟨e1.trans e2, Or.inr ⟨e1'.trans e2', Or.inl (e1'' ▸ h2)⟩⟩;
      exact Or.inr ⟨e1.trans e2, Or.inr ⟨e1'.trans e2', Or.inr ⟨e1''.trans e2'', h1.trans h2⟩⟩⟩ ]

/-- `min(hash((seed, user, seed)) for user in users)` (line 133), the seeded
hash abstracted as `h`.  Buckets are built from nonempty `grouped` runs, so
`min?` is always `some`; `getD 0` sits where Python `min` of an empty sequence
would raise. -/
def minhashDigest (h : ℕ → ℤ) (users : List ℕ) : ℤ :=
  ((users.map h).min?).getD 0

/-- One `minhash_round` (lines 126-140), its randomness injected: `h` is the
seeded hash of this round, `t i` the i-th `random.random()` draw (one per
bucket, in iteration order).  Returns the sorted buckets — the in-place state
the next round sees — and the adjacent-pair score stream; `none` models a
ZeroDivisionError escaping `jaccard_similarity`. -/
def minhash_round (h : ℕ → ℤ) (t : ℕ → ℚ) (buckets : List Bucket) :
    Option (List Bucket × List (ℕ × ℕ × ℚ)) :=
  let hashed := buckets.enum.map
    (fun p => ((minhashDigest h p.2.2.2.2, t p.1, p.2.2.2.1, p.2.2.2.2) : Bucket))
  let sorted := hashed.insertionSort bucketLE
  ((sorted.zip sorted.tail).mapM
      (fun q => (jaccard_similarity q.1.2.2.2 q.2.2.2.2).map
        (fun s => (q.1.2.2.1, q.2.2.2.1, s)))).map
    (fun scores => (sorted, scores))

/-- Per-round randomness (spec §6 `random_seed_source`): the seeded hash and
the tiebreak draw sequence. -/
abbrev Round : Type := (ℕ → ℤ) × (ℕ → ℚ)

/-- `insert_rec` (lines 152-158) acting on one item's K slots, represented as
the list of (score, rec) pairs read off the two parallel arrays
`doi2scores[doi*K:(doi+1)*K]` / `doi2recs[doi*K:(doi+1)*K]` (every array
access in the loop uses the same index, so the pair list is the exact state).
`break` on a matching id keeps the remainder; a higher score swaps in and the
displaced pair continues down the scan. -/
def insert_rec (rec : ℤ) (score : ℚ) : List (ℚ × ℤ) → List (ℚ × ℤ)
  | [] => []
  | (s, r) :: slots =>
    if r = rec then (s, r) :: slots
    else if score > s then (score, rec) :: insert_rec r s slots
    else (s, r) :: insert_rec rec score slots

/-- `insert_rec` addressed by item: the flat arrays hold `num_dois` disjoint
blocks of K slots; `doi` selects the block.  (Python would raise IndexError
for `doi ≥ num_dois`; the model's out-of-range access is a no-op — unreachable
from the pipeline, whose ids are in range.) -/
def insertTables (doi : ℕ) (rec : ℤ) (score : ℚ)
    (tables : List (List (ℚ × ℤ))) : List (List (ℚ × ℤ)) :=
  tables.set doi (insert_rec rec score (tables.getD doi []))

/-- The drain loop of `recommendations` (lines 167-175): for each doi in order,
emit `[doi, rec, score]` for every slot with positive score and non-sentinel
id, in slot order. -/
def drain (num_dois : ℕ) (tables : List (List (ℚ × ℤ))) : List (ℕ × ℕ × ℚ) :=
  (List.range num_dois).flatMap
    (fun doi =>
      ((tables.getD doi []).filter (fun p => decide (0 < p.1) && decide (0 ≤ p.2))).map
        (fun p => (doi, p.2.toNat, p.1)))

/-- `recommendations` (lines 142-176) with `K = settings.recommendations_per_doi`
and the rounds' randomness injected (`rounds.length = settings.minhash_rounds`;
a nonpositive setting makes the Python `xrange` empty, i.e. `rounds = []`,
and a nonpositive K makes every block empty, i.e. `K = 0`). -/
def recommendations (K : ℕ) (rounds : List Round) (edges : List (ℕ × ℕ))
    (num_dois : ℕ) : Option (List (ℕ × ℕ × ℚ)) :=
  let buckets0 : List Bucket :=
    (grouped Prod.fst edges).map
      (fun g => (0, 0, g.1, (g.2.map Prod.snd).insertionSort (· ≤ ·)))
  let init := List.replicate num_dois (List.replicate K ((0 : ℚ), (-1 : ℤ)))
  (rounds.foldlM
      (fun st (r : Round) =>
        (minhash_round r.1 r.2 st.1).map
          (fun br =>
            (br.1,
              br.2.foldl
                (fun tb e =>
                  insertTables e.2.1 (e.1 : ℤ) e.2.2
                    (insertTables e.1 (e.2.1 : ℤ) e.2.2 tb))
                st.2)))
      ((buckets0, init) : List Bucket × List (List (ℚ × ℤ)))).map
    (fun st => drain num_dois st.2)

/-- `postprocess` (lines 178-185): sort by the rec column, restore its labels,
sort by the doi column, restore its labels, then group rows by doi.  Python
destructures each row `[doi, rec_label, score]` as `(_, score, rec)` — the
names are swapped — and emits `(score, rec)`, i.e. the pair
(candidate label, score). -/
def postprocess (raw_dois : List String) (recs : List (ℕ × ℕ × ℚ)) :
    Option (List (String × List (String × ℚ))) :=
  let r1 := recs.insertionSort (fun a b => a.2.1 ≤ b.2.1)
  match unnumber (r1.map (fun p => (p.2.1, (p.1, p.2.2)))) raw_dois with
  | none => none
  | some r2 =>
    let r2' := r2.map (fun p => ((p.2.1, p.1, p.2.2) : ℕ × String × ℚ))
    let r3 := r2'.insertionSort (fun a b => a.1 ≤ b.1)
    match unnumber (r3.map (fun p => (p.1, (p.2.1, p.2.2)))) raw_dois with
    | none => none
    | some r4 =>
      some ((grouped Prod.fst r4).map
        (fun g => (g.1, g.2.map (fun p => (p.2.1, p.2.2)))))

/-- `main` (lines 187-195): concatenate the per-file edge lists, preprocess,
run `recommendations`, postprocess.  No configuration validation of any kind
appears on this path. -/
def main_run (K : ℕ) (rounds : List Round) (files : List (List (String × String))) :
    Option (List (String × List (String × ℚ))) :=
  let raw_edges := files.flatten
  let pre := preprocess raw_edges
  match recommendations K rounds pre.2 pre.1.length with
  | none => none
  | some recs => postprocess pre.1 recs

/-- Count of `stash(...)` constructions executed by `preprocess`, independent
of data and configuration: line 91 (copy of the input), lines 94 and 95
(`stash.sorted` of a generator builds an input stash and an output stash
each), line 99 (`stash.sorted` of an existing stash builds only the output
stash), line 101 (generator input: two), line 102 (the final edges stash).
1 + 2 + 2 + 1 + 2 + 1 = 9. -/
def preprocessStashCount : ℕ := 9

/-! Order instances for the two sort keys used by `postprocess` (rec-id column
and doi-id column). -/

instance : IsTotal (ℕ × ℕ × ℚ) (fun a b => a.2.1 ≤ b.2.1) :=
  ⟨fun a b => Nat.le_total a.2.1 b.2.1⟩

instance : IsTrans (ℕ × ℕ × ℚ) (fun a b => a.2.1 ≤ b.2.1) :=
  ⟨fun _ _ _ h1 h2 => Nat.le_trans h1 h2⟩

instance : IsTotal (ℕ × String × ℚ) (fun a b => a.1 ≤ b.1) :=
  ⟨fun a b => Nat.le_total a.1 b.1⟩

instance : IsTrans (ℕ × String × ℚ) (fun a b => a.1 ≤ b.1) :=
  ⟨fun _ _ _ h1 h2 => Nat.le_trans h1 h2⟩

/-! ## Lemmas about the Jaccard merge loop -/

theorem jaccardGo_sum_pos (u1 : ℕ) (us1 : List ℕ) (f : List ℕ → ℕ × ℕ) :
    ∀ l2, 0 < (jaccardGo u1 us1 f l2).1 + (jaccardGo u1 us1 f l2).2 := by
  intro l2
  induction l2 with
  | nil => simp [jaccardGo]
  | cons u2 us2 ih =>
    by_cases h1 : u1 < u2
    · simp only [jaccardGo, if_pos h1]
      omega
    · by_cases h2 : u2 < u1
      · simp only [jaccardGo, if_neg h1, if_pos h2]
        omega
      · simp only [jaccardGo, if_neg h1, if_neg h2]
        omega

theorem jaccardCounts_sum_eq_zero (l1 l2 : List ℕ) :
    (jaccardCounts l1 l2).1 + (jaccardCounts l1 l2).2 = 0 ↔ l1 = [] ∧ l2 = [] := by
  cases l1 with
  | nil => simp [jaccardCounts, List.length_eq_zero]
  | cons u1 us1 =>
    simp only [jaccardCounts]
    have hpos := jaccardGo_sum_pos u1 us1 (jaccardCounts us1) l2
    constructor
    · intro h; exact absurd h (by omega)
    · rintro ⟨h, -⟩; exact absurd h (List.cons_ne_nil _ _)

/-- C10: with both inputs empty, `jaccard_similarity` reaches the unguarded
division `0 / 0` (a `ZeroDivisionError`, modelled as `none`), and this error
branch is reachable exactly when both inputs are empty: any nonempty input
makes `intersection + difference` positive. -/
theorem C10_jaccard_zero_division :
    jaccard_similarity [] [] = none ∧
    ∀ users1 users2 : List ℕ,
      jaccard_similarity users1 users2 = none ↔ (users1 = [] ∧ users2 = []) := by
  constructor
  · rfl
  · intro users1 users2
    by_cases h : (jaccardCounts users1 users2).1 + (jaccardCounts users1 users2).2 = 0
    · obtain ⟨e1, e2⟩ := (jaccardCounts_sum_eq_zero users1 users2).mp h
      subst e1; subst e2
      simp [jaccard_similarity, jaccardCounts]
    · have h2 : ¬(users1 = [] ∧ users2 = []) :=
        fun hc => h ((jaccardCounts_sum_eq_zero users1 users2).mpr hc)
      simp [jaccard_similarity, h, h2]

/-! ## C3: frame property of `insert_rec` -/

/-- C3 counterexample: candidate 2 already occupies the middle slot
(score 5) of the state [(8,1),(5,2),(3,3)], yet `insert_rec` with score 9
rewrites the slots to [(9,2),(8,1),(5,2)]: the incoming pair is swapped in at
slot 0 before the scan reaches the occupied slot, so the slots are modified
(and candidate 2 now occupies two slots). -/
theorem C3_counterexample :
    ((2 : ℤ) ∈ ([((8:ℚ),(1:ℤ)),(5,2),(3,3)].map Prod.snd)) ∧
    insert_rec 2 9 [((8:ℚ),(1:ℤ)),(5,2),(3,3)] = [(9,2),(8,1),(5,2)] ∧
    insert_rec 2 9 [((8:ℚ),(1:ℤ)),(5,2),(3,3)] ≠ [(8,1),(5,2),(3,3)] := by
  refine ⟨by decide, by decide, by decide⟩

/-- C3 (amended): if candidate `c` already occupies a slot *and* the incoming
score does not exceed the score of any slot before it — in particular, for
descending-sorted slots, whenever the incoming score is at most the stored
one — then `insert_rec` stops without modification. -/
theorem C3_insert_frame (c : ℤ) (s : ℚ) (P Q : List (ℚ × ℤ)) (s₀ : ℚ)
    (hP : ∀ p ∈ P, s ≤ p.1) :
    insert_rec c s (P ++ (s₀, c) :: Q) = P ++ (s₀, c) :: Q := by
  induction P with
  | nil => simp [insert_rec]
  | cons q P' ih =>
    obtain ⟨s', r'⟩ := q
    by_cases hr : r' = c
    · simp [insert_rec, hr]
    · have hs : ¬ s > s' := not_lt.mpr (hP (s', r') (List.mem_cons_self _ _))
      simp only [List.cons_append, insert_rec, if_neg hr, if_neg hs]
      exact congrArg (List.cons (s', r')) (ih (fun p hp => hP p (List.mem_cons_of_mem _ hp)))

theorem C3_insert_frame_witness :
    (∀ p ∈ [((8:ℚ),(1:ℤ))], (4:ℚ) ≤ p.1) ∧
    insert_rec 2 4 ([((8:ℚ),(1:ℤ))] ++ ((5:ℚ),(2:ℤ)) :: [(3,3)]) =
      [((8:ℚ),(1:ℤ))] ++ ((5:ℚ),(2:ℤ)) :: [(3,3)] :=
  ⟨by decide, C3_insert_frame 2 4 [(8,1)] [(3,3)] 5 (by decide)⟩

/-! ## C8: properties of `stash.sorted` -/

/-- C8: for any total, transitive serialized-line order, `stash.sorted`
(external `sort -u`) returns rows without duplicates, every returned row is a
row of the input, and the operation is idempotent. -/
theorem C8_sort_dedup_spec {α : Type} [DecidableEq α] (r : α → α → Prop)
    [DecidableRel r] [IsTotal α r] [IsTrans α r] (rows : List α) :
    (stash.sorted r rows).Nodup ∧
    (∀ x ∈ stash.sorted r rows, x ∈ rows) ∧
    stash.sorted r (stash.sorted r rows) = stash.sorted r rows := by
  refine ⟨List.nodup_dedup _, ?_, ?_⟩
  · intro x hx
    exact (List.mem_insertionSort r).mp ((List.dedup_sublist _).subset hx)
  · have hsorted : (stash.sorted r rows).Pairwise r :=
      List.Pairwise.sublist (List.dedup_sublist _) (List.sorted_insertionSort r rows)
    show ((stash.sorted r rows).insertionSort r).dedup = stash.sorted r rows
    rw [List.Sorted.insertionSort_eq hsorted]
    exact List.dedup_eq_self.mpr (List.nodup_dedup _)

theorem C8_sort_dedup_spec_witness :
    (stash.sorted (α := ℕ) (· ≤ ·) [2,1,2]).Nodup ∧
    (∀ x ∈ stash.sorted (α := ℕ) (· ≤ ·) [2,1,2], x ∈ [2,1,2]) ∧
    stash.sorted (· ≤ ·) (stash.sorted (· ≤ ·) [2,1,2]) =
      stash.sorted (α := ℕ) (· ≤ ·) [2,1,2] :=
  C8_sort_dedup_spec (· ≤ ·) [2,1,2]

/-! ## C7: correctness of `jaccard_similarity` on sorted duplicate-free input -/

theorem jaccardCounts_spec :
    ∀ (A B : List ℕ), A.Pairwise (· < ·) → B.Pairwise (· < ·) →
      (jaccardCounts A B).1 = (A.toFinset ∩ B.toFinset).card ∧
      (jaccardCounts A B).1 + (jaccardCounts A B).2 = (A.toFinset ∪ B.toFinset).card := by
  intro A
  induction A with
  | nil =>
    intro B _ hB
    have hnd : B.Nodup := hB.imp (fun h => ne_of_lt h)
    simp [jaccardCounts, List.toFinset_card_of_nodup hnd]
  | cons a A' ihA =>
    intro B
    induction B with
    | nil =>
      intro hA _
      have hnd : (a :: A').Nodup := hA.imp (fun h => ne_of_lt h)
      have hcard := List.toFinset_card_of_nodup hnd
      refine ⟨by simp [jaccardCounts, jaccardGo], ?_⟩
      simp only [jaccardCounts, jaccardGo, List.toFinset_nil, Finset.union_empty, hcard,
        List.length_cons]
      omega
    | cons b B' ihB =>
      intro hA hB
      have haA : ∀ x ∈ A', a < x := (List.pairwise_cons.mp hA).1
      have hbB : ∀ x ∈ B', b < x := (List.pairwise_cons.mp hB).1
      have hA' := (List.pairwise_cons.mp hA).2
      have hB' := (List.pairwise_cons.mp hB).2
      have hanA : a ∉ A'.toFinset := by
        simp only [List.mem_toFinset]; exact fun hx => lt_irrefl _ (haA _ hx)
      have hbnB : b ∉ B'.toFinset := by
        simp only [List.mem_toFinset]; exact fun hx => lt_irrefl _ (hbB _ hx)
      rcases lt_trichotomy a b with hab | hab | hab
      · have key : jaccardCounts (a :: A') (b :: B') =
            ((jaccardCounts A' (b :: B')).1, (jaccardCounts A' (b :: B')).2 + 1) := by
          simp [jaccardCounts, jaccardGo, hab]
        obtain ⟨ih1, ih2⟩ := ihA (b :: B') hA' hB
        have hanb : a ∉ insert b B'.toFinset := by
          simp only [Finset.mem_insert, List.mem_toFinset]
          rintro (rfl | hx)
          · exact lt_irrefl _ hab
          · exact lt_irrefl _ (hab.trans (hbB _ hx))
        simp only [List.toFinset_cons] at ih1 ih2 ⊢
        refine ⟨?_, ?_⟩
        · rw [key, Finset.insert_inter_of_not_mem hanb]
          exact ih1
        · rw [key, Finset.insert_union, Finset.card_insert_of_not_mem (by
            simp only [Finset.mem_union]
            rintro (h | h)
            · exact hanA h
            · exact hanb h)]
          omega
      · subst hab
        have key : jaccardCounts (a :: A') (a :: B') =
            ((jaccardCounts A' B').1 + 1, (jaccardCounts A' B').2) := by
          simp [jaccardCounts, jaccardGo]
        obtain ⟨ih1, ih2⟩ := ihA B' hA' hB'
        simp only [List.toFinset_cons] at ih1 ih2 ⊢
        refine ⟨?_, ?_⟩
        · rw [key, Finset.insert_inter_of_mem (Finset.mem_insert_self a _),
            Finset.inter_insert_of_not_mem hanA,
            Finset.card_insert_of_not_mem (fun hmem => hanA (Finset.mem_of_mem_inter_left hmem))]
          omega
        · rw [key, Finset.insert_union, Finset.union_insert, Finset.insert_idem,
            Finset.card_insert_of_not_mem (by
              simp only [Finset.mem_union]
              rintro (h | h)
              · exact hanA h
              · exact hbnB h)]
          omega
      · have key : jaccardCounts (a :: A') (b :: B') =
            ((jaccardCounts (a :: A') B').1, (jaccardCounts (a :: A') B').2 + 1) := by
          simp [jaccardCounts, jaccardGo, hab, asymm hab]
        obtain ⟨ih1, ih2⟩ := ihB hA hB'
        have hbna : b ∉ insert a A'.toFinset := by
          simp only [Finset.mem_insert, List.mem_toFinset]
          rintro (rfl | hx)
          · exact lt_irrefl _ hab
          · exact lt_irrefl _ (hab.trans (haA _ hx))
        simp only [List.toFinset_cons] at ih1 ih2 ⊢
        refine ⟨?_, ?_⟩
        · rw [key, Finset.inter_insert_of_not_mem hbna]
          exact ih1
        · rw [key, Finset.union_insert, Finset.card_insert_of_not_mem (by
            simp only [Finset.mem_union]
            rintro (h | h)
            · exact hbna h
            · exact hbnB h)]
          omega

/-- C7: for sorted, duplicate-free inputs that are not both empty,
`jaccard_similarity` returns exactly |A∩B| / |A∪B|; consequently it is
symmetric, equals 1 on equal inputs, and equals 0 on disjoint inputs. -/
theorem C7_jaccard_spec (A B : List ℕ)
    (hA : A.Pairwise (· < ·)) (hB : B.Pairwise (· < ·)) (hne : A ≠ [] ∨ B ≠ []) :
    jaccard_similarity A B =
      some (((A.toFinset ∩ B.toFinset).card : ℚ) / ((A.toFinset ∪ B.toFinset).card : ℚ)) ∧
    jaccard_similarity A B = jaccard_similarity B A ∧
    (A = B → jaccard_similarity A B = some 1) ∧
    ((∀ x ∈ A, x ∉ B) → jaccard_similarity A B = some 0) := by
  have formula : ∀ (X Y : List ℕ), X.Pairwise (· < ·) → Y.Pairwise (· < ·) →
      (X.toFinset ∪ Y.toFinset).card ≠ 0 →
      jaccard_similarity X Y =
        some (((X.toFinset ∩ Y.toFinset).card : ℚ) / ((X.toFinset ∪ Y.toFinset).card : ℚ)) := by
    intro X Y hX hY hcard
    obtain ⟨h1, h2⟩ := jaccardCounts_spec X Y hX hY
    have hsum : (jaccardCounts X Y).1 + (jaccardCounts X Y).2 ≠ 0 := by omega
    simp only [jaccard_similarity, if_neg hsum]
    rw [Rat.mkRat_eq_div, h2, h1]
    push_cast
    ring_nf
  have hcard : (A.toFinset ∪ B.toFinset).card ≠ 0 := by
    rcases hne with h | h
    · obtain ⟨x, hx⟩ := List.exists_mem_of_ne_nil A h
      exact Finset.card_ne_zero_of_mem (Finset.mem_union_left _ (List.mem_toFinset.mpr hx))
    · obtain ⟨x, hx⟩ := List.exists_mem_of_ne_nil B h
      exact Finset.card_ne_zero_of_mem (Finset.mem_union_right _ (List.mem_toFinset.mpr hx))
  have hAB := formula A B hA hB hcard
  refine ⟨hAB, ?_, ?_, ?_⟩
  · have hcard' : (B.toFinset ∪ A.toFinset).card ≠ 0 := by
      rwa [Finset.union_comm]
    rw [hAB, formula B A hB hA hcard', Finset.inter_comm, Finset.union_comm]
  · rintro rfl
    rw [hAB, Finset.inter_self, Finset.union_self]
    have : ((A.toFinset.card : ℚ)) ≠ 0 := by
      rw [Finset.union_self] at hcard
      exact_mod_cast hcard
    rw [div_self this]
  · intro hdisj
    have hempty : A.toFinset ∩ B.toFinset = ∅ := by
      apply Finset.eq_empty_of_forall_not_mem
      intro x hx
      rw [Finset.mem_inter, List.mem_toFinset, List.mem_toFinset] at hx
      exact hdisj x hx.1 hx.2
    rw [hAB, hempty]
    simp

theorem C7_jaccard_spec_witness :
    (([1,2] : List ℕ).Pairwise (· < ·) ∧ ([2,3] : List ℕ).Pairwise (· < ·) ∧
      (([1,2] : List ℕ) ≠ [] ∨ ([2,3] : List ℕ) ≠ [])) ∧
    jaccard_similarity [1,2] [2,3] = jaccard_similarity [2,3] [1,2] :=
  ⟨⟨by decide, by decide, Or.inl (by decide)⟩,
    (C7_jaccard_spec [1,2] [2,3] (by decide) (by decide) (Or.inl (by decide))).2.1⟩

/-! ## Lock-step walk lemmas for `numbered` and `unnumber` -/

theorem sorted_indexOf_mono {α : Type} [DecidableEq α] [LinearOrder α] {l : List α}
    (hl : l.Pairwise (· < ·)) {x y : α} (hx : x ∈ l) (hy : y ∈ l) (hxy : x ≤ y) :
    l.indexOf x ≤ l.indexOf y := by
  by_contra hcon
  push_neg at hcon
  have hyl := List.indexOf_lt_length.mpr hy
  have hxl := List.indexOf_lt_length.mpr hx
  have := List.pairwise_iff_getElem.mp hl _ _ hyl hxl hcon
  rw [List.getElem_indexOf hyl, List.getElem_indexOf hxl] at this
  exact absurd hxy (not_le.mpr this)

theorem mem_drop_of_le_indexOf {α : Type} [DecidableEq α] {l : List α} {x : α} {i : ℕ}
    (hx : x ∈ l) (h : i ≤ l.indexOf x) : x ∈ l.drop i := by
  have hsplit : l.take i ++ l.drop i = l := List.take_append_drop i l
  rcases List.mem_append.mp (hsplit ▸ hx) with hmem | hmem
  · exfalso
    have h1 : l.indexOf x = (l.take i).indexOf x := by
      conv_lhs => rw [← hsplit]
      exact List.indexOf_append_of_mem hmem
    have h2 : (l.take i).indexOf x < (l.take i).length := List.indexOf_lt_length.mpr hmem
    have h3 : (l.take i).length ≤ i := by
      rw [List.length_take]; omega
    omega
  · exact hmem

theorem labelSeek_spec {α : Type} [DecidableEq α] (k : α) :
    ∀ (labels : List α) (label : α) (index : ℕ), k ∈ label :: labels →
      labelSeek k label index labels =
        some (index + (label :: labels).indexOf k, k,
          labels.drop ((label :: labels).indexOf k)) := by
  intro labels
  induction labels with
  | nil =>
    intro label index hk
    have hkl : k = label := List.mem_singleton.mp hk
    subst hkl
    simp [labelSeek, List.indexOf_cons_self]
  | cons l ls ih =>
    intro label index hk
    by_cases he : label = k
    · subst he
      simp [labelSeek, List.indexOf_cons_self]
    · have hk' : k ∈ l :: ls := by
        rcases List.mem_cons.mp hk with h | h
        · exact absurd h.symm he
        · exact h
      have hne : label ≠ k := he
      rw [labelSeek, if_neg he, ih l (index + 1) hk', List.indexOf_cons_ne _ hne]
      simp only [List.drop_succ_cons]
      congr 2
      omega

theorem numberedAux_spec {α β : Type} [DecidableEq α] [LinearOrder α] (full : List α)
    (hfull : full.Pairwise (· < ·)) :
    ∀ (rows : List (α × β)) (index : ℕ) (label : α) (labels : List α),
      full.drop index = label :: labels →
      (rows.map Prod.fst).Pairwise (· ≤ ·) →
      (∀ k ∈ rows.map Prod.fst, k ∈ label :: labels) →
      numberedAux label index labels rows = rows.map (fun p => (full.indexOf p.1, p.2)) := by
  intro rows
  induction rows with
  | nil => intro index label labels _ _ _; rfl
  | cons row rows' ih =>
    obtain ⟨k, b⟩ := row
    intro index label labels hdrop hsort hmem
    have hk : k ∈ label :: labels := hmem k (by simp)
    have hidx : index < full.length := by
      by_contra hcon
      rw [List.drop_eq_nil_of_le (le_of_not_lt hcon)] at hdrop
      exact List.cons_ne_nil _ _ hdrop.symm
    have hmlen : (label :: labels).indexOf k < labels.length + 1 := by
      simpa using List.indexOf_lt_length.mpr hk
    have hfullsplit : full.take index ++ (label :: labels) = full := by
      rw [← hdrop]; exact List.take_append_drop index full
    have hknotin : k ∉ full.take index := by
      intro hcon
      have hpair := (List.pairwise_append.mp (hfullsplit ▸ hfull)).2.2
      exact lt_irrefl k (hpair k hcon k hk)
    have hindexOf : full.indexOf k = index + (label :: labels).indexOf k := by
      conv_lhs => rw [← hfullsplit]
      rw [List.indexOf_append_of_not_mem hknotin, List.length_take,
        Nat.min_eq_left (le_of_lt hidx)]
    have hmlen2 : (label :: labels).indexOf k < (label :: labels).length := by
      simpa using hmlen
    have hgetm : (label :: labels)[(label :: labels).indexOf k] = k :=
      List.getElem_indexOf hmlen2
    have hdropm : full.drop (index + (label :: labels).indexOf k) =
        k :: labels.drop ((label :: labels).indexOf k) := by
      have hdd : (full.drop index).drop ((label :: labels).indexOf k) =
          full.drop (index + (label :: labels).indexOf k) := by
        rw [List.drop_drop, Nat.add_comm]
      rw [← hdd, hdrop, List.drop_eq_getElem_cons (by simpa using hmlen), hgetm,
        List.drop_succ_cons]
    have hkfull : k ∈ full := by
      rw [← hdrop] at hk
      exact (List.drop_sublist _ _).subset hk
    simp only [numberedAux, labelSeek_spec k labels label index hk]
    rw [ih (index + (label :: labels).indexOf k) k (labels.drop ((label :: labels).indexOf k))
      hdropm ((List.pairwise_cons.mp hsort).2) ?_]
    · simp only [List.map_cons]
      rw [hindexOf]
    · intro k' hk'
      have hk'full : k' ∈ label :: labels := hmem k' (List.mem_cons_of_mem _ hk')
      have hkk' : k ≤ k' := (List.pairwise_cons.mp hsort).1 k' hk'
      have hk'infull : k' ∈ full := by
        rw [← hdrop] at hk'full
        exact (List.drop_sublist _ _).subset hk'full
      have hmono := sorted_indexOf_mono hfull hkfull hk'infull hkk'
      have hge : index + (label :: labels).indexOf k ≤ full.indexOf k' := hindexOf ▸ hmono
      have := mem_drop_of_le_indexOf hk'infull hge
      rwa [hdropm] at this

theorem numbered_spec {α β : Type} [DecidableEq α] [LinearOrder α]
    (rows : List (α × β)) (labels : List α)
    (hlab : labels.Pairwise (· < ·))
    (hsort : (rows.map Prod.fst).Pairwise (· ≤ ·))
    (hmem : ∀ k ∈ rows.map Prod.fst, k ∈ labels) :
    numbered rows labels = rows.map (fun p => (labels.indexOf p.1, p.2)) := by
  cases labels with
  | nil =>
    cases rows with
    | nil => rfl
    | cons row rows' => exact absurd (hmem row.1 (by simp)) (List.not_mem_nil _)
  | cons l ls =>
    exact numberedAux_spec (l :: ls) hlab rows 0 l ls rfl hsort hmem

theorem getD_congr_of_lt {α : Type} {l : List α} {n : ℕ} (h : n < l.length) (d d' : α) :
    l.getD n d = l.getD n d' := by
  rw [List.getD_eq_getElem?_getD, List.getD_eq_getElem?_getD, List.getElem?_eq_getElem h]
  rfl

theorem getD_head_of_drop {α : Type} {full : List α} {index : ℕ} {label : α} {labels : List α}
    (hdrop : full.drop index = label :: labels) (d : α) :
    full.getD index d = label := by
  have hidx : index < full.length := by
    by_contra hcon
    rw [List.drop_eq_nil_of_le (le_of_not_lt hcon)] at hdrop
    exact List.cons_ne_nil _ _ hdrop.symm
  have := List.drop_eq_getElem_cons (l := full) (n := index) hidx
  rw [hdrop] at this
  have hget := ((List.cons.injEq _ _ _ _).mp this.symm).1
  rw [List.getD_eq_getElem?_getD, List.getElem?_eq_getElem hidx]
  exact hget

theorem tail_drop_of_drop {α : Type} {full : List α} {index : ℕ} {label : α} {labels : List α}
    (hdrop : full.drop index = label :: labels) :
    full.drop (index + 1) = labels := by
  have hidx : index < full.length := by
    by_contra hcon
    rw [List.drop_eq_nil_of_le (le_of_not_lt hcon)] at hdrop
    exact List.cons_ne_nil _ _ hdrop.symm
  have := List.drop_eq_getElem_cons (l := full) (n := index) hidx
  rw [hdrop] at this
  exact ((List.cons.injEq _ _ _ _).mp this.symm).2

theorem indexSeek_spec {α : Type} (full : List α) :
    ∀ (labels : List α) (index : ℕ) (label : α), full.drop index = label :: labels →
      ∀ target, index ≤ target → target < full.length →
      indexSeek target index label labels =
        some (target, full.getD target label, full.drop (target + 1)) := by
  intro labels
  induction labels with
  | nil =>
    intro index label hdrop target hle hlt
    have hlen : full.length = index + 1 := by
      have := congrArg List.length hdrop
      rw [List.length_drop] at this
      simp at this
      omega
    have hti : target = index := by omega
    subst hti
    rw [indexSeek, if_pos rfl, getD_head_of_drop hdrop, tail_drop_of_drop hdrop]
  | cons l ls ih =>
    intro index label hdrop target hle hlt
    by_cases heq : index = target
    · subst heq
      rw [indexSeek, if_pos rfl, getD_head_of_drop hdrop, tail_drop_of_drop hdrop]
    · have hdrop' : full.drop (index + 1) = l :: ls := tail_drop_of_drop hdrop
      rw [indexSeek, if_neg heq, ih (index + 1) l hdrop' target (by omega) hlt]
      rw [getD_congr_of_lt hlt l label]

theorem unnumberAux_spec {α β : Type} (full : List α) (d : α) :
    ∀ (rows : List (ℕ × β)) (index : ℕ) (label : α) (labels : List α),
      full.drop index = label :: labels →
      (rows.map Prod.fst).Pairwise (· ≤ ·) →
      (∀ i ∈ rows.map Prod.fst, index ≤ i ∧ i < full.length) →
      unnumberAux index label labels rows =
        some (rows.map (fun p => (full.getD p.1 d, p.2))) := by
  intro rows
  induction rows with
  | nil => intro index label labels _ _ _; rfl
  | cons row rows' ih =>
    obtain ⟨i, b⟩ := row
    intro index label labels hdrop hsort hmem
    have hi := hmem i (by simp)
    have hres := indexSeek_spec full labels index label hdrop i hi.1 hi.2
    simp only [unnumberAux, hres]
    have hdropi : full.drop i = full.getD i label :: full.drop (i + 1) := by
      have h1 := List.drop_eq_getElem_cons (l := full) (n := i) hi.2
      rw [List.getD_eq_getElem?_getD, List.getElem?_eq_getElem hi.2]
      exact h1
    rw [ih i (full.getD i label) (full.drop (i + 1)) hdropi (List.pairwise_cons.mp hsort).2 ?_]
    · simp only [Option.map_some']
      rw [List.map_cons]
      simp only
      rw [getD_congr_of_lt hi.2 label d]
    · intro i' hi'
      exact ⟨(List.pairwise_cons.mp hsort).1 i' hi',
        (hmem i' (List.mem_cons_of_mem _ hi')).2⟩

theorem unnumber_spec {α β : Type} (rows : List (ℕ × β)) (labels : List α) (d : α)
    (hsort : (rows.map Prod.fst).Pairwise (· ≤ ·))
    (hlt : ∀ i ∈ rows.map Prod.fst, i < labels.length)
    (hne : labels ≠ []) :
    unnumber rows labels = some (rows.map (fun p => (labels.getD p.1 d, p.2))) := by
  cases labels with
  | nil => exact absurd rfl hne
  | cons l ls =>
    exact unnumberAux_spec (l :: ls) d rows 0 l ls rfl hsort
      (fun i hi => ⟨Nat.zero_le _, hlt i hi⟩)

/-! ## C9: key compaction and restoration -/

theorem stash_sorted_mem {α : Type} [DecidableEq α] (r : α → α → Prop) [DecidableRel r]
    (rows : List α) (x : α) : x ∈ stash.sorted r rows ↔ x ∈ rows := by
  rw [stash.sorted, List.mem_dedup, List.mem_insertionSort]

theorem stash_sorted_nodup {α : Type} [DecidableEq α] (r : α → α → Prop) [DecidableRel r]
    (rows : List α) : (stash.sorted r rows).Nodup :=
  List.nodup_dedup _

theorem stash_sorted_pairwise {α : Type} [DecidableEq α] (r : α → α → Prop) [DecidableRel r]
    [IsTotal α r] [IsTrans α r] (rows : List α) : (stash.sorted r rows).Pairwise r :=
  List.Pairwise.sublist (List.dedup_sublist _) (List.sorted_insertionSort r rows)

theorem stash_sorted_pairwise_lt {α : Type} [DecidableEq α] [LinearOrder α] (rows : List α) :
    (stash.sorted (· ≤ ·) rows).Pairwise (· < ·) := by
  have h1 := stash_sorted_pairwise (· ≤ ·) rows
  have h2 : (stash.sorted (· ≤ ·) rows).Pairwise (· ≠ ·) := stash_sorted_nodup (· ≤ ·) rows
  exact (h1.and h2).imp (fun h => lt_of_le_of_ne h.1 h.2)

/-- C9 counterexample: the empty stream is sorted, its label list is empty,
compaction yields the empty stream, but restoration hits `labels.next()` on an
empty iterator before reading any row — `unnumber` aborts (Python: an uncaught
`StopIteration`) instead of returning the identity. -/
theorem C9_counterexample :
    (([] : List (String × ℕ)).map Prod.fst).Pairwise (· ≤ ·) ∧
    numbered ([] : List (String × ℕ))
      (stash.sorted (· ≤ ·) (([] : List (String × ℕ)).map Prod.fst)) = [] ∧
    unnumber
      (numbered ([] : List (String × ℕ))
        (stash.sorted (· ≤ ·) (([] : List (String × ℕ)).map Prod.fst)))
      (stash.sorted (· ≤ ·) (([] : List (String × ℕ)).map Prod.fst)) ≠ some [] :=
  ⟨List.Pairwise.nil, rfl, by simp [stash.sorted, numbered, unnumber, List.insertionSort]⟩

/-- C9 (amended): for every *nonempty* stream of rows sorted by key, with the
label list built — as `preprocess` builds it — by sort+dedup of the key
column: compaction replaces every key by its sorted rank, distinct keys
receive distinct ids, the id space is exactly [0, distinct key count), and
restoration after compaction is the identity.  (On the empty stream the label
list is empty and restoration's initial `labels.next()` raises instead.) -/
theorem C9_compaction_roundtrip {α β : Type} [DecidableEq α] [LinearOrder α]
    (rows : List (α × β))
    (hsort : (rows.map Prod.fst).Pairwise (· ≤ ·))
    (hne : rows ≠ []) :
    numbered rows (stash.sorted (· ≤ ·) (rows.map Prod.fst)) =
      rows.map (fun p => ((stash.sorted (· ≤ ·) (rows.map Prod.fst)).indexOf p.1, p.2)) ∧
    (∀ k ∈ rows.map Prod.fst, ∀ k' ∈ rows.map Prod.fst,
      (stash.sorted (· ≤ ·) (rows.map Prod.fst)).indexOf k =
        (stash.sorted (· ≤ ·) (rows.map Prod.fst)).indexOf k' → k = k') ∧
    (∀ j, j ∈ (numbered rows (stash.sorted (· ≤ ·) (rows.map Prod.fst))).map Prod.fst ↔
      j < (stash.sorted (· ≤ ·) (rows.map Prod.fst)).length) ∧
    unnumber (numbered rows (stash.sorted (· ≤ ·) (rows.map Prod.fst)))
      (stash.sorted (· ≤ ·) (rows.map Prod.fst)) = some rows := by
  have hlt := stash_sorted_pairwise_lt (rows.map Prod.fst)
  have hnd := stash_sorted_nodup (α := α) (· ≤ ·) (rows.map Prod.fst)
  have hmem : ∀ k ∈ rows.map Prod.fst, k ∈ stash.sorted (· ≤ ·) (rows.map Prod.fst) :=
    fun k hk => (stash_sorted_mem _ _ k).mpr hk
  have ha := numbered_spec rows (stash.sorted (· ≤ ·) (rows.map Prod.fst)) hlt hsort hmem
  obtain ⟨row0, rows0, hrows0⟩ := List.exists_cons_of_ne_nil hne
  refine ⟨ha, ?_, ?_, ?_⟩
  · intro k hk k' hk' heq
    have h1 := List.getElem_indexOf (List.indexOf_lt_length.mpr (hmem k hk))
    have h2 := List.getElem_indexOf (List.indexOf_lt_length.mpr (hmem k' hk'))
    rw [← h1, ← h2]
    congr 1
  · intro j
    rw [ha]
    constructor
    · intro hj
      rw [List.map_map, List.mem_map] at hj
      obtain ⟨p, hp, hpj⟩ := hj
      simp only [Function.comp] at hpj
      rw [← hpj]
      exact List.indexOf_lt_length.mpr (hmem p.1 (List.mem_map_of_mem Prod.fst hp))
    · intro hj
      have hjmem := List.getElem_mem hj
      have hjkeys := (stash_sorted_mem (α := α) (· ≤ ·) (rows.map Prod.fst) _).mp hjmem
      obtain ⟨p, hp, hpk⟩ := List.mem_map.mp hjkeys
      rw [List.map_map, List.mem_map]
      refine ⟨p, hp, ?_⟩
      simp only [Function.comp]
      rw [hpk, List.indexOf_getElem hnd j hj]
  · rw [ha]
    have hidsort : ((rows.map
        (fun p => ((stash.sorted (· ≤ ·) (rows.map Prod.fst)).indexOf p.1, p.2))).map
          Prod.fst).Pairwise (· ≤ ·) := by
      rw [List.map_map]
      have : rows.map (Prod.fst ∘ fun p =>
          ((stash.sorted (· ≤ ·) (rows.map Prod.fst)).indexOf p.1, p.2)) =
          (rows.map Prod.fst).map
            (fun k => (stash.sorted (· ≤ ·) (rows.map Prod.fst)).indexOf k) := by
        rw [List.map_map]
        rfl
      rw [this, List.pairwise_map]
      refine hsort.imp_of_mem ?_
      intro k k' hk hk' hkk'
      exact sorted_indexOf_mono hlt (hmem k hk) (hmem k' hk') hkk'
    have hidlt : ∀ i ∈ (rows.map
        (fun p => ((stash.sorted (· ≤ ·) (rows.map Prod.fst)).indexOf p.1, p.2))).map
          Prod.fst, i < (stash.sorted (· ≤ ·) (rows.map Prod.fst)).length := by
      intro i hi
      rw [List.map_map, List.mem_map] at hi
      obtain ⟨p, hp, hpi⟩ := hi
      simp only [Function.comp] at hpi
      rw [← hpi]
      exact List.indexOf_lt_length.mpr (hmem p.1 (List.mem_map_of_mem Prod.fst hp))
    have hlabne : stash.sorted (· ≤ ·) (rows.map Prod.fst) ≠ [] := by
      intro hc
      have := hmem row0.1 (by rw [hrows0]; simp)
      rw [hc] at this
      exact List.not_mem_nil _ this
    rw [unnumber_spec _ _ row0.1 hidsort hidlt hlabne]
    congr 1
    rw [List.map_map]
    conv_rhs => rw [← List.map_id rows]
    refine List.map_congr_left ?_
    intro p hp
    have hmemp := hmem p.1 (List.mem_map_of_mem Prod.fst hp)
    have hgetd : (stash.sorted (· ≤ ·) (rows.map Prod.fst)).getD
        ((stash.sorted (· ≤ ·) (rows.map Prod.fst)).indexOf p.1) row0.1 = p.1 := by
      rw [List.getD_eq_getElem?_getD,
        List.getElem?_eq_getElem (List.indexOf_lt_length.mpr hmemp)]
      simp only [Option.getD_some]
      exact List.getElem_indexOf _
    simp only [Function.comp]
    rw [hgetd]
    rfl

theorem C9_compaction_roundtrip_witness :
    ((([((5:ℕ),(0:ℕ)), (5,1), (7,2)]).map Prod.fst).Pairwise (· ≤ ·) ∧
      ([((5:ℕ),(0:ℕ)), (5,1), (7,2)] : List (ℕ × ℕ)) ≠ []) ∧
    unnumber
      (numbered [((5:ℕ),(0:ℕ)), (5,1), (7,2)]
        (stash.sorted (· ≤ ·) (([((5:ℕ),(0:ℕ)), (5,1), (7,2)]).map Prod.fst)))
      (stash.sorted (· ≤ ·) (([((5:ℕ),(0:ℕ)), (5,1), (7,2)]).map Prod.fst)) =
      some [((5:ℕ),(0:ℕ)), (5,1), (7,2)] :=
  ⟨⟨by decide, by decide⟩,
    (C9_compaction_roundtrip [((5:ℕ),(0:ℕ)), (5,1), (7,2)] (by decide) (by decide)).2.2.2⟩

/-! ## C4: the claimed bot filter does not exist in `preprocess` -/

theorem strLE_le {a b : String} : strLE a b ↔ a ≤ b := by
  rw [String.le_iff_toList_le]
  exact Iff.rfl

theorem strData_lt {a b : String} : a.data < b.data ↔ a < b := by
  rw [String.lt_iff_toList_lt]
  exact Iff.rfl

theorem stash_sorted_strLE_pairwise_lt (xs : List String) :
    (stash.sorted strLE xs).Pairwise (· < ·) := by
  have h1 := stash_sorted_pairwise strLE xs
  have h2 : (stash.sorted strLE xs).Pairwise (· ≠ ·) := stash_sorted_nodup strLE xs
  refine (h1.and h2).imp ?_
  rintro a b ⟨hle, hne⟩
  exact lt_of_le_of_ne (strLE_le.mp hle) hne

theorem rawEdge_fst_le {a b : String × String} (h : rawEdgeLE a b) : a.1 ≤ b.1 := by
  rcases h with h | ⟨h, -⟩
  · exact le_of_lt (strData_lt.mp h)
  · exact le_of_eq h

theorem compEdge_fst_le {a b : String × ℕ} (h : compEdgeLE a b) : a.1 ≤ b.1 := by
  rcases h with h | ⟨h, -⟩
  · exact le_of_lt (strData_lt.mp h)
  · exact le_of_eq h

theorem indexOf_inj_of_mem {α : Type} [DecidableEq α] {l : List α} {x y : α}
    (hx : x ∈ l) (hy : y ∈ l) (h : l.indexOf x = l.indexOf y) : x = y := by
  have h1 := List.getElem_indexOf (List.indexOf_lt_length.mpr hx)
  have h2 := List.getElem_indexOf (List.indexOf_lt_length.mpr hy)
  rw [← h1, ← h2]
  congr 1

/-- C4 counterexample: in the log [(u1,a),(u1,b)] user u1 touches 2 > 1
distinct items, so with `max_interactions_per_user = 1` the claim demands u1
contribute zero edges; but `preprocess` keeps both of u1's edges (u1 has user
id 0 and both output rows carry it). -/
theorem C4_counterexample :
    (preprocess [("u1","a"),("u1","b")]).2 = [(0,0),(1,0)] ∧
    ((preprocess [("u1","a"),("u1","b")]).2.filter (fun e => e.2 = 0)).length = 2 ∧
    (stash.sorted strLE ([("u1","a"),("u1","b")].map Prod.fst)).indexOf "u1" = 0 ∧
    ([("u1","a"),("u1","b")].filter (fun e => e.1 = "u1")).map Prod.snd = ["a","b"] := by
  refine ⟨by decide, by decide, by decide, by decide⟩

/-- C4 (amended): `preprocess` applies no per-user interaction cap — no
`max_interactions_per_user` check exists on this path.  Every user, whatever
their distinct item count, contributes exactly their distinct edges: the
compacted stream holds (item_rank, user_rank) precisely for the distinct
(user, item) pairs of the input, each exactly once. -/
theorem C4_no_bot_filter (raw : List (String × String)) :
    (preprocess raw).2.Nodup ∧
    (preprocess raw).2.length = (stash.sorted rawEdgeLE raw).length ∧
    (∀ u d : String, (u, d) ∈ raw ↔
      ((stash.sorted strLE (raw.map Prod.snd)).indexOf d,
       (stash.sorted strLE (raw.map Prod.fst)).indexOf u) ∈ (preprocess raw).2) := by
  classical
  have hU := stash_sorted_strLE_pairwise_lt (raw.map Prod.fst)
  have hD := stash_sorted_strLE_pairwise_lt (raw.map Prod.snd)
  have hS1pw := stash_sorted_pairwise rawEdgeLE raw
  have hS1nd := stash_sorted_nodup rawEdgeLE raw
  have hS1mem := stash_sorted_mem rawEdgeLE raw
  have hS1sort : ((stash.sorted rawEdgeLE raw).map Prod.fst).Pairwise (· ≤ ·) :=
    List.pairwise_map.mpr (hS1pw.imp (fun h => rawEdge_fst_le h))
  have hS1keys : ∀ k ∈ (stash.sorted rawEdgeLE raw).map Prod.fst,
      k ∈ stash.sorted strLE (raw.map Prod.fst) := by
    intro k hk
    obtain ⟨p, hp, hpk⟩ := List.mem_map.mp hk
    rw [stash_sorted_mem]
    exact hpk ▸ List.mem_map_of_mem Prod.fst ((hS1mem p).mp hp)
  have he1 : numbered (stash.sorted rawEdgeLE raw) (stash.sorted strLE (raw.map Prod.fst)) =
      (stash.sorted rawEdgeLE raw).map
        (fun p => ((stash.sorted strLE (raw.map Prod.fst)).indexOf p.1, p.2)) :=
    numbered_spec _ _ hU hS1sort hS1keys
  have hpre : (preprocess raw).2 =
      numbered
        (stash.sorted compEdgeLE
          (((stash.sorted rawEdgeLE raw).map
            (fun p => ((stash.sorted strLE (raw.map Prod.fst)).indexOf p.1, p.2))).map
              (fun p => (p.2, p.1))))
        (stash.sorted strLE (raw.map Prod.snd)) := by
    simp only [preprocess]
    rw [he1]
  set e2 := ((stash.sorted rawEdgeLE raw).map
      (fun p => ((stash.sorted strLE (raw.map Prod.fst)).indexOf p.1, p.2))).map
        (fun p => (p.2, p.1)) with he2def
  have he2eq : e2 = (stash.sorted rawEdgeLE raw).map
      (fun p => (p.2, (stash.sorted strLE (raw.map Prod.fst)).indexOf p.1)) := by
    rw [he2def, List.map_map]
    rfl
  have he2nodup : e2.Nodup := by
    rw [he2eq]
    refine List.Nodup.map_on ?_ hS1nd
    intro p hp q hq heq
    rw [Prod.mk.injEq] at heq
    have h1 : p.1 = q.1 :=
      indexOf_inj_of_mem (hS1keys p.1 (List.mem_map_of_mem _ hp))
        (hS1keys q.1 (List.mem_map_of_mem _ hq)) heq.2
    exact Prod.ext h1 heq.1
  have hS2pw := stash_sorted_pairwise compEdgeLE e2
  have hS2nd := stash_sorted_nodup compEdgeLE e2
  have hS2mem := stash_sorted_mem compEdgeLE e2
  have hS2len : (stash.sorted compEdgeLE e2).length = e2.length := by
    rw [stash.sorted, List.dedup_eq_self.mpr
      ((List.perm_insertionSort compEdgeLE e2).nodup_iff.mpr he2nodup),
      List.length_insertionSort]
  have hS2sort : ((stash.sorted compEdgeLE e2).map Prod.fst).Pairwise (· ≤ ·) :=
    List.pairwise_map.mpr (hS2pw.imp (fun h => compEdge_fst_le h))
  have hS2keys : ∀ k ∈ (stash.sorted compEdgeLE e2).map Prod.fst,
      k ∈ stash.sorted strLE (raw.map Prod.snd) := by
    intro k hk
    obtain ⟨q, hq, hqk⟩ := List.mem_map.mp hk
    have hqe2 := (hS2mem q).mp hq
    rw [he2eq, List.mem_map] at hqe2
    obtain ⟨p, hp, hpq⟩ := hqe2
    rw [stash_sorted_mem]
    have hq1 : q.1 = p.2 := by rw [← hpq]
    rw [← hqk, hq1]
    exact List.mem_map_of_mem Prod.snd ((hS1mem p).mp hp)
  have he3 : (preprocess raw).2 = (stash.sorted compEdgeLE e2).map
      (fun q => ((stash.sorted strLE (raw.map Prod.snd)).indexOf q.1, q.2)) := by
    rw [hpre]
    exact numbered_spec _ _ hD hS2sort hS2keys
  refine ⟨?_, ?_, ?_⟩
  · rw [he3]
    refine List.Nodup.map_on ?_ hS2nd
    intro q hq q' hq' heq
    rw [Prod.mk.injEq] at heq
    have h1 : q.1 = q'.1 :=
      indexOf_inj_of_mem (hS2keys q.1 (List.mem_map_of_mem _ hq))
        (hS2keys q'.1 (List.mem_map_of_mem _ hq')) heq.1
    exact Prod.ext h1 heq.2
  · rw [he3, List.length_map, hS2len, he2def, List.length_map, List.length_map]
  · intro u d
    constructor
    · intro hud
      have hS1ud : (u, d) ∈ stash.sorted rawEdgeLE raw := (hS1mem (u, d)).mpr hud
      have hq : ((d, (stash.sorted strLE (raw.map Prod.fst)).indexOf u) : String × ℕ) ∈ e2 := by
        rw [he2eq]
        exact List.mem_map_of_mem _ hS1ud
      have hqS2 := (hS2mem _).mpr hq
      rw [he3]
      exact List.mem_map_of_mem _ hqS2
    · intro hmem
      rw [he3, List.mem_map] at hmem
      obtain ⟨q, hqS2, hqeq⟩ := hmem
      rw [Prod.mk.injEq] at hqeq
      have hqe2 := (hS2mem q).mp hqS2
      rw [he2eq, List.mem_map] at hqe2
      obtain ⟨p, hpS1, hpq⟩ := hqe2
      have hq1 : q.1 = p.2 := by rw [← hpq]
      have hq2 : q.2 = (stash.sorted strLE (raw.map Prod.fst)).indexOf p.1 := by rw [← hpq]
      have hp1U : p.1 ∈ stash.sorted strLE (raw.map Prod.fst) :=
        hS1keys p.1 (List.mem_map_of_mem Prod.fst hpS1)
      have hp2D : p.2 ∈ stash.sorted strLE (raw.map Prod.snd) := by
        rw [stash_sorted_mem]
        exact List.mem_map_of_mem Prod.snd ((hS1mem p).mp hpS1)
      have hdD : d ∈ stash.sorted strLE (raw.map Prod.snd) := by
        by_contra hcon
        have hlen := List.indexOf_eq_length.mpr hcon
        have hlt := List.indexOf_lt_length.mpr hp2D
        rw [hq1] at hqeq
        omega
      have huU : u ∈ stash.sorted strLE (raw.map Prod.fst) := by
        by_contra hcon
        have hlen := List.indexOf_eq_length.mpr hcon
        have hlt := List.indexOf_lt_length.mpr hp1U
        rw [hq2] at hqeq
        omega
      have hd : p.2 = d := by
        refine indexOf_inj_of_mem hp2D hdD ?_
        rw [← hq1]
        exact hqeq.1
      have hu : p.1 = u := by
        refine indexOf_inj_of_mem hp1U huU ?_
        rw [← hq2]
        exact hqeq.2
      have : p = (u, d) := Prod.ext hu hd
      rw [← this]
      exact (hS1mem p).mp hpS1

/-! ## The slot-scan `insert_rec`: structural lemmas -/

theorem insert_rec_subset {d : ℚ} {e : ℤ} :
    ∀ (X : List (ℚ × ℤ)) (p : ℚ × ℤ), p ∈ insert_rec e d X → p = (d, e) ∨ p ∈ X := by
  intro X
  induction X generalizing d e with
  | nil => intro p hp; exact absurd hp (List.not_mem_nil _)
  | cons q X' ih =>
    obtain ⟨s, r⟩ := q
    intro p hp
    by_cases hb : r = e
    · rw [insert_rec, if_pos hb] at hp
      exact Or.inr hp
    · by_cases hgt : d > s
      · rw [insert_rec, if_neg hb, if_pos hgt] at hp
        rcases List.mem_cons.mp hp with h | h
        · exact Or.inl h
        · rcases ih (d := s) (e := r) p h with h2 | h2
          · exact Or.inr (List.mem_cons.mpr (Or.inl h2))
          · exact Or.inr (List.mem_cons_of_mem _ h2)
      · rw [insert_rec, if_neg hb, if_neg hgt] at hp
        rcases List.mem_cons.mp hp with h | h
        · exact Or.inr (List.mem_cons.mpr (Or.inl h))
        · rcases ih (d := d) (e := e) p h with h2 | h2
          · exact Or.inl h2
          · exact Or.inr (List.mem_cons_of_mem _ h2)

theorem insert_rec_sorted {d : ℚ} {e : ℤ} :
    ∀ (X : List (ℚ × ℤ)), X.Pairwise (fun p q => q.1 ≤ p.1) →
      (insert_rec e d X).Pairwise (fun p q => q.1 ≤ p.1) := by
  intro X
  induction X generalizing d e with
  | nil => intro _; exact List.Pairwise.nil
  | cons q X' ih =>
    obtain ⟨s, r⟩ := q
    intro hX
    obtain ⟨hhead, htail⟩ := List.pairwise_cons.mp hX
    by_cases hb : r = e
    · rw [insert_rec, if_pos hb]
      exact hX
    · by_cases hgt : d > s
      · rw [insert_rec, if_neg hb, if_pos hgt]
        refine List.pairwise_cons.mpr ⟨?_, ih (d := s) (e := r) htail⟩
        intro p hp
        rcases insert_rec_subset X' p hp with h | h
        · rw [h]
          exact le_of_lt hgt
        · exact le_of_lt (lt_of_le_of_lt (hhead p h) hgt)
      · rw [insert_rec, if_neg hb, if_neg hgt]
        refine List.pairwise_cons.mpr ⟨?_, ih (d := d) (e := e) htail⟩
        intro p hp
        rcases insert_rec_subset X' p hp with h | h
        · rw [h]
          exact le_of_not_lt hgt
        · exact hhead p h

theorem insert_rec_pad_absorb (m : ℕ) :
    insert_rec (-1) 0 (List.replicate m ((0:ℚ), (-1:ℤ))) =
      List.replicate m ((0:ℚ), (-1:ℤ)) := by
  cases m with
  | zero => rfl
  | succ m' => rw [List.replicate_succ, insert_rec, if_pos rfl]

theorem insert_rec_frame (c : ℤ) (s : ℚ) (P Q : List (ℚ × ℤ)) (s₀ : ℚ)
    (hP : ∀ p ∈ P, s ≤ p.1) :
    insert_rec c s (P ++ (s₀, c) :: Q) = P ++ (s₀, c) :: Q := by
  induction P with
  | nil => simp [insert_rec]
  | cons q P' ih =>
    obtain ⟨s', r'⟩ := q
    by_cases hr : r' = c
    · simp [insert_rec, hr]
    · have hs : ¬ s > s' := not_lt.mpr (hP (s', r') (List.mem_cons_self _ _))
      simp only [List.cons_append, insert_rec, if_neg hr, if_neg hs]
      exact congrArg (List.cons (s', r')) (ih (fun p hp => hP p (List.mem_cons_of_mem _ hp)))

theorem insert_rec_reject (c : ℤ) (s : ℚ) :
    ∀ (X : List (ℚ × ℤ)), c ∉ X.map Prod.snd → (∀ p ∈ X, s ≤ p.1) →
      insert_rec c s X = X := by
  intro X
  induction X with
  | nil => intro _ _; rfl
  | cons q X' ih =>
    obtain ⟨s', r'⟩ := q
    intro hc hall
    have hr : r' ≠ c := by
      intro h
      exact hc (by simp [h])
    have hs : ¬ s > s' := not_lt.mpr (hall (s', r') (List.mem_cons_self _ _))
    rw [insert_rec, if_neg hr, if_neg hs,
      ih (fun h => hc (List.mem_cons_of_mem _ h)) (fun p hp => hall p (List.mem_cons_of_mem _ hp))]

theorem insert_rec_travel :
    ∀ (A : List (ℚ × ℤ)) (d : ℚ) (e : ℤ),
      A.Pairwise (fun p q => q.1 ≤ p.1) →
      (A.map Prod.snd).Nodup →
      e ∉ A.map Prod.snd →
      (∀ p ∈ A, p.1 ≤ d) →
      ∃ w, w ∈ (d, e) :: A ∧ (∀ p ∈ (d, e) :: A, w.1 ≤ p.1) ∧
        (w :: insert_rec e d A).Perm ((d, e) :: A) ∧
        (insert_rec e d A).Pairwise (fun p q => q.1 ≤ p.1) := by
  intro A
  induction A with
  | nil =>
    intro d e _ _ _ _
    refine ⟨(d, e), List.mem_cons_self _ _, ?_, List.Perm.refl _, List.Pairwise.nil⟩
    intro p hp
    have hpd : p = (d, e) := by simpa using hp
    rw [hpd]
  | cons q A' ih =>
    obtain ⟨s₁, e₁⟩ := q
    intro d e hA hnd heA hdom
    have he₁ : e₁ ≠ e := by
      intro h
      exact heA (by simp [← h])
    obtain ⟨hhead, hA'⟩ := List.pairwise_cons.mp hA
    obtain ⟨hnd1, hnd'⟩ := List.pairwise_cons.mp hnd
    have he₁A' : e₁ ∉ A'.map Prod.snd := by
      intro hc
      obtain ⟨p, hp, hpe⟩ := List.mem_map.mp hc
      exact hnd1 p.2 (List.mem_map_of_mem _ hp) hpe.symm
    have heA' : e ∉ A'.map Prod.snd := fun hc => heA (by simp [hc])
    have hs₁d : s₁ ≤ d := hdom _ (List.mem_cons_self _ _)
    by_cases hgt : d > s₁
    · rw [insert_rec, if_neg he₁, if_pos hgt]
      obtain ⟨w, hwmem, hwbound, hwperm, hsorted⟩ :=
        ih s₁ e₁ hA' hnd' he₁A' (fun p hp => hhead p hp)
      refine ⟨w, List.mem_cons_of_mem _ hwmem, ?_, ?_, ?_⟩
      · intro p hp
        rcases List.mem_cons.mp hp with h | h
        · rw [h]
          exact le_trans (hwbound _ (List.mem_cons_self _ _)) (le_of_lt hgt)
        · exact hwbound p h
      · exact ((List.Perm.swap (d, e) w _).trans (hwperm.cons (d, e)))
      · refine List.pairwise_cons.mpr ⟨?_, hsorted⟩
        intro p hp
        have hpmem : p ∈ (s₁, e₁) :: A' :=
          hwperm.mem_iff.mp (List.mem_cons_of_mem _ hp)
        rcases List.mem_cons.mp hpmem with h | h
        · rw [h]
          exact le_of_lt hgt
        · exact le_of_lt (lt_of_le_of_lt (hhead p h) hgt)
    · have heq : s₁ = d := le_antisymm hs₁d (le_of_not_lt hgt)
      rw [insert_rec, if_neg he₁, if_neg hgt]
      obtain ⟨w, hwmem, hwbound, hwperm, hsorted⟩ :=
        ih d e hA' hnd' heA' (fun p hp => le_trans (hhead p hp) (le_of_eq heq))
      refine ⟨w, ?_, ?_, ?_, ?_⟩
      · rcases List.mem_cons.mp hwmem with h | h
        · rw [h]
          exact List.mem_cons_self _ _
        · exact List.mem_cons_of_mem _ (List.mem_cons_of_mem _ h)
      · intro p hp
        rcases List.mem_cons.mp hp with h | h
        · rw [h]
          exact hwbound _ (List.mem_cons_self _ _)
        · rcases List.mem_cons.mp h with h2 | h2
          · rw [h2]
            show w.1 ≤ s₁
            rw [heq]
            exact hwbound _ (List.mem_cons_self _ _)
          · exact hwbound p (List.mem_cons_of_mem _ h2)
      · exact ((List.Perm.swap (s₁, e₁) w _).trans
          ((hwperm.cons (s₁, e₁)).trans (List.Perm.swap (d, e) (s₁, e₁) A')))
      · refine List.pairwise_cons.mpr ⟨?_, hsorted⟩
        intro p hp
        have hpmem : p ∈ (d, e) :: A' :=
          hwperm.mem_iff.mp (List.mem_cons_of_mem _ hp)
        rcases List.mem_cons.mp hpmem with h | h
        · rw [h, heq]
        · exact hhead p h

theorem insert_rec_travel_pad :
    ∀ (A : List (ℚ × ℤ)) (d : ℚ) (e : ℤ) (m : ℕ), 0 < m →
      A.Pairwise (fun p q => q.1 ≤ p.1) →
      (∀ p ∈ A, 0 < p.1) →
      (∀ p ∈ A, 0 ≤ p.2) →
      (A.map Prod.snd).Nodup →
      0 < d → 0 ≤ e →
      e ∉ A.map Prod.snd →
      (∀ p ∈ A, p.1 ≤ d) →
      ∃ B, insert_rec e d (A ++ List.replicate m ((0:ℚ), (-1:ℤ))) =
          B ++ List.replicate (m - 1) ((0:ℚ), (-1:ℤ)) ∧
        B.Perm ((d, e) :: A) ∧
        B.Pairwise (fun p q => q.1 ≤ p.1) := by
  intro A
  induction A with
  | nil =>
    intro d e m hm _ _ _ _ hd he _ _
    obtain ⟨m', rfl⟩ : ∃ m', m = m' + 1 := ⟨m - 1, (Nat.succ_pred_eq_of_pos hm).symm⟩
    refine ⟨[(d, e)], ?_, List.Perm.refl _, List.pairwise_singleton _ _⟩
    rw [List.nil_append, List.replicate_succ, insert_rec,
      if_neg (by omega : ¬ (-1 : ℤ) = e), if_pos hd, insert_rec_pad_absorb]
    simp
  | cons q A' ih =>
    obtain ⟨s₁, e₁⟩ := q
    intro d e m hm hA hpos hids hnd hd he heA hdom
    have he₁ : e₁ ≠ e := by
      intro h
      exact heA (by simp [← h])
    obtain ⟨hhead, hA'⟩ := List.pairwise_cons.mp hA
    obtain ⟨hnd1, hnd'⟩ := List.pairwise_cons.mp hnd
    have he₁A' : e₁ ∉ A'.map Prod.snd := by
      intro hc
      obtain ⟨p, hp, hpe⟩ := List.mem_map.mp hc
      exact hnd1 p.2 (List.mem_map_of_mem _ hp) hpe.symm
    have heA' : e ∉ A'.map Prod.snd := fun hc => heA (by simp [hc])
    have hs₁pos : 0 < s₁ := hpos _ (List.mem_cons_self _ _)
    have he₁pos : 0 ≤ e₁ := hids _ (List.mem_cons_self _ _)
    have hpos' : ∀ p ∈ A', 0 < p.1 := fun p hp => hpos p (List.mem_cons_of_mem _ hp)
    have hids' : ∀ p ∈ A', 0 ≤ p.2 := fun p hp => hids p (List.mem_cons_of_mem _ hp)
    by_cases hgt : d > s₁
    · rw [List.cons_append, insert_rec, if_neg he₁, if_pos hgt]
      obtain ⟨B', hBeq, hBperm, hBsorted⟩ :=
        ih s₁ e₁ m hm hA' hpos' hids' hnd' hs₁pos he₁pos he₁A' (fun p hp => hhead p hp)
      refine ⟨(d, e) :: B', by rw [hBeq, List.cons_append], hBperm.cons (d, e), ?_⟩
      refine List.pairwise_cons.mpr ⟨?_, hBsorted⟩
      intro p hp
      have hpmem : p ∈ (s₁, e₁) :: A' := hBperm.mem_iff.mp hp
      rcases List.mem_cons.mp hpmem with h | h
      · rw [h]
        exact le_of_lt hgt
      · exact le_of_lt (lt_of_le_of_lt (hhead p h) hgt)
    · have heq : s₁ = d := le_antisymm (hdom _ (List.mem_cons_self _ _)) (le_of_not_lt hgt)
      rw [List.cons_append, insert_rec, if_neg he₁, if_neg hgt]
      obtain ⟨B', hBeq, hBperm, hBsorted⟩ :=
        ih d e m hm hA' hpos' hids' hnd' hd he heA'
          (fun p hp => le_trans (hhead p hp) (le_of_eq heq))
      refine ⟨(s₁, e₁) :: B', by rw [hBeq, List.cons_append], ?_, ?_⟩
      · exact (hBperm.cons (s₁, e₁)).trans (List.Perm.swap (d, e) (s₁, e₁) A')
      · refine List.pairwise_cons.mpr ⟨?_, hBsorted⟩
        intro p hp
        have hpmem : p ∈ (d, e) :: A' := hBperm.mem_iff.mp hp
        rcases List.mem_cons.mp hpmem with h | h
        · rw [h, heq]
        · exact hhead p h

theorem insert_rec_fresh_pad :
    ∀ (A : List (ℚ × ℤ)) (c : ℤ) (s : ℚ) (m : ℕ), 0 < m →
      A.Pairwise (fun p q => q.1 ≤ p.1) →
      (∀ p ∈ A, 0 < p.1) →
      (∀ p ∈ A, 0 ≤ p.2) →
      (A.map Prod.snd).Nodup →
      0 < s → 0 ≤ c →
      c ∉ A.map Prod.snd →
      ∃ B, insert_rec c s (A ++ List.replicate m ((0:ℚ), (-1:ℤ))) =
          B ++ List.replicate (m - 1) ((0:ℚ), (-1:ℤ)) ∧
        B.Perm ((s, c) :: A) ∧
        B.Pairwise (fun p q => q.1 ≤ p.1) := by
  intro A
  induction A with
  | nil =>
    intro c s m hm hA hpos hids hnd hs hc hcA
    exact insert_rec_travel_pad [] s c m hm hA hpos hids hnd hs hc hcA (by simp)
  | cons q A' ih =>
    obtain ⟨s₁, e₁⟩ := q
    intro c s m hm hA hpos hids hnd hs hc hcA
    have he₁ : e₁ ≠ c := by
      intro h
      exact hcA (by simp [← h])
    obtain ⟨hhead, hA'⟩ := List.pairwise_cons.mp hA
    obtain ⟨hnd1, hnd'⟩ := List.pairwise_cons.mp hnd
    have he₁A' : e₁ ∉ A'.map Prod.snd := by
      intro hmem
      obtain ⟨p, hp, hpe⟩ := List.mem_map.mp hmem
      exact hnd1 p.2 (List.mem_map_of_mem _ hp) hpe.symm
    have hcA' : c ∉ A'.map Prod.snd := fun hmem => hcA (by simp [hmem])
    have hs₁pos : 0 < s₁ := hpos _ (List.mem_cons_self _ _)
    have he₁pos : 0 ≤ e₁ := hids _ (List.mem_cons_self _ _)
    have hpos' : ∀ p ∈ A', 0 < p.1 := fun p hp => hpos p (List.mem_cons_of_mem _ hp)
    have hids' : ∀ p ∈ A', 0 ≤ p.2 := fun p hp => hids p (List.mem_cons_of_mem _ hp)
    by_cases hgt : s > s₁
    · rw [List.cons_append, insert_rec, if_neg he₁, if_pos hgt]
      obtain ⟨B', hBeq, hBperm, hBsorted⟩ :=
        insert_rec_travel_pad A' s₁ e₁ m hm hA' hpos' hids' hnd' hs₁pos he₁pos he₁A'
          (fun p hp => hhead p hp)
      refine ⟨(s, c) :: B', by rw [hBeq, List.cons_append], hBperm.cons (s, c), ?_⟩
      refine List.pairwise_cons.mpr ⟨?_, hBsorted⟩
      intro p hp
      have hpmem : p ∈ (s₁, e₁) :: A' := hBperm.mem_iff.mp hp
      rcases List.mem_cons.mp hpmem with h | h
      · rw [h]
        exact le_of_lt hgt
      · exact le_of_lt (lt_of_le_of_lt (hhead p h) hgt)
    · rw [List.cons_append, insert_rec, if_neg he₁, if_neg hgt]
      obtain ⟨B', hBeq, hBperm, hBsorted⟩ :=
        ih c s m hm hA' hpos' hids' hnd' hs hc hcA'
      refine ⟨(s₁, e₁) :: B', by rw [hBeq, List.cons_append], ?_, ?_⟩
      · exact (hBperm.cons (s₁, e₁)).trans (List.Perm.swap (s, c) (s₁, e₁) A')
      · refine List.pairwise_cons.mpr ⟨?_, hBsorted⟩
        intro p hp
        have hpmem : p ∈ (s, c) :: A' := hBperm.mem_iff.mp hp
        rcases List.mem_cons.mp hpmem with h | h
        · rw [h]
          exact le_of_not_lt hgt
        · exact hhead p h

theorem insert_rec_fresh_full :
    ∀ (A : List (ℚ × ℤ)) (c : ℤ) (s : ℚ),
      A.Pairwise (fun p q => q.1 ≤ p.1) →
      (A.map Prod.snd).Nodup →
      c ∉ A.map Prod.snd →
      ∃ w, w ∈ (s, c) :: A ∧ (∀ p ∈ (s, c) :: A, w.1 ≤ p.1) ∧
        (w :: insert_rec c s A).Perm ((s, c) :: A) ∧
        (insert_rec c s A).Pairwise (fun p q => q.1 ≤ p.1) := by
  intro A
  induction A with
  | nil =>
    intro c s _ _ _
    refine ⟨(s, c), List.mem_cons_self _ _, ?_, List.Perm.refl _, List.Pairwise.nil⟩
    intro p hp
    have hpd : p = (s, c) := by simpa using hp
    rw [hpd]
  | cons q A' ih =>
    obtain ⟨s₁, e₁⟩ := q
    intro c s hA hnd hcA
    have he₁ : e₁ ≠ c := by
      intro h
      exact hcA (by simp [← h])
    obtain ⟨hhead, hA'⟩ := List.pairwise_cons.mp hA
    obtain ⟨hnd1, hnd'⟩ := List.pairwise_cons.mp hnd
    have he₁A' : e₁ ∉ A'.map Prod.snd := by
      intro hmem
      obtain ⟨p, hp, hpe⟩ := List.mem_map.mp hmem
      exact hnd1 p.2 (List.mem_map_of_mem _ hp) hpe.symm
    have hcA' : c ∉ A'.map Prod.snd := fun hmem => hcA (by simp [hmem])
    by_cases hgt : s > s₁
    · rw [insert_rec, if_neg he₁, if_pos hgt]
      obtain ⟨w, hwmem, hwbound, hwperm, hsorted⟩ :=
        insert_rec_travel A' s₁ e₁ hA' hnd' he₁A' (fun p hp => hhead p hp)
      refine ⟨w, ?_, ?_, ?_, ?_⟩
      · rcases List.mem_cons.mp hwmem with h | h
        · rw [h]
          exact List.mem_cons_of_mem _ (List.mem_cons_self _ _)
        · exact List.mem_cons_of_mem _ (List.mem_cons_of_mem _ h)
      · intro p hp
        rcases List.mem_cons.mp hp with h | h
        · rw [h]
          exact le_trans (hwbound _ (List.mem_cons_self _ _)) (le_of_lt hgt)
        · exact hwbound p h
      · exact (List.Perm.swap (s, c) w _).trans (hwperm.cons (s, c))
      · refine List.pairwise_cons.mpr ⟨?_, hsorted⟩
        intro p hp
        have hpmem : p ∈ (s₁, e₁) :: A' :=
          hwperm.mem_iff.mp (List.mem_cons_of_mem _ hp)
        rcases List.mem_cons.mp hpmem with h | h
        · rw [h]
          exact le_of_lt hgt
        · exact le_of_lt (lt_of_le_of_lt (hhead p h) hgt)
    · rw [insert_rec, if_neg he₁, if_neg hgt]
      obtain ⟨w, hwmem, hwbound, hwperm, hsorted⟩ := ih c s hA' hnd' hcA'
      refine ⟨w, ?_, ?_, ?_, ?_⟩
      · rcases List.mem_cons.mp hwmem with h | h
        · rw [h]
          exact List.mem_cons_self _ _
        · exact List.mem_cons_of_mem _ (List.mem_cons_of_mem _ h)
      · intro p hp
        rcases List.mem_cons.mp hp with h | h
        · exact h ▸ hwbound _ (List.mem_cons_self _ _)
        · rcases List.mem_cons.mp h with h2 | h2
          · rw [h2]
            exact le_trans (hwbound _ (List.mem_cons_self _ _)) (le_of_not_lt hgt)
          · exact hwbound p (List.mem_cons_of_mem _ h2)
      · exact (List.Perm.swap (s₁, e₁) w _).trans
          ((hwperm.cons (s₁, e₁)).trans (List.Perm.swap (s, c) (s₁, e₁) A'))
      · refine List.pairwise_cons.mpr ⟨?_, hsorted⟩
        intro p hp
        have hpmem : p ∈ (s, c) :: A' :=
          hwperm.mem_iff.mp (List.mem_cons_of_mem _ hp)
        rcases List.mem_cons.mp hpmem with h | h
        · rw [h]
          exact le_of_not_lt hgt
        · exact hhead p h

theorem topk_ids_sat {K : ℕ} {A : List (ℚ × ℤ)} {L' : List (ℤ × ℚ)} {m : ℕ}
    (hm : 0 < m) (hlen : A.length + m = K)
    (hcard : A.length = min K (L'.map Prod.fst).toFinset.card)
    (hnd : (A.map Prod.snd).Nodup)
    (hmem : ∀ p ∈ A, (p.2, p.1) ∈ L') :
    (A.map Prod.snd).toFinset = (L'.map Prod.fst).toFinset := by
  have hsub : (A.map Prod.snd).toFinset ⊆ (L'.map Prod.fst).toFinset := by
    intro x hx
    obtain ⟨p, hp, hpx⟩ := List.mem_map.mp (List.mem_toFinset.mp hx)
    exact List.mem_toFinset.mpr (hpx ▸ List.mem_map_of_mem Prod.fst (hmem p hp))
  have hcardA : (A.map Prod.snd).toFinset.card = A.length := by
    rw [List.toFinset_card_of_nodup hnd, List.length_map]
  have hD : (L'.map Prod.fst).toFinset.card ≤ A.length := by omega
  exact Finset.eq_of_subset_of_card_le hsub (le_of_le_of_eq hD hcardA.symm)

/-- C1 (amended): fold of insert_rec events over the initial sentinel table. Under
per-candidate score consistency, strictly positive scores and nonnegative candidate
ids, the table splits into a stored prefix and a sentinel suffix; the prefix holds
exactly min(K, #distinct inserted candidates) entries, each an inserted
(candidate, score) pair, sorted descending by score, with no duplicate candidate
ids, and every inserted candidate missing from the table has score at most every
stored score. -/
theorem C1_topK_invariant (K : ℕ) (f : ℤ → ℚ) (L : List (ℤ × ℚ)) :
    (∀ q ∈ L, q.2 = f q.1) →
    (∀ q ∈ L, 0 < q.2) →
    (∀ q ∈ L, 0 ≤ q.1) →
    ∃ A m,
      L.foldl (fun X q => insert_rec q.1 q.2 X) (List.replicate K ((0:ℚ), (-1:ℤ))) =
        A ++ List.replicate m ((0:ℚ), (-1:ℤ)) ∧
      A.length + m = K ∧
      A.Pairwise (fun p q => q.1 ≤ p.1) ∧
      (A.map Prod.snd).Nodup ∧
      (∀ p ∈ A, (p.2, p.1) ∈ L ∧ 0 < p.1 ∧ 0 ≤ p.2) ∧
      A.length = min K ((L.map Prod.fst).toFinset.card) ∧
      (∀ q ∈ L, q.1 ∉ A.map Prod.snd → ∀ p ∈ A, q.2 ≤ p.1) := by
  induction L using List.reverseRecOn with
  | nil =>
    intro _ _ _
    exact ⟨[], K, by simp, by simp, List.Pairwise.nil, List.nodup_nil, by simp, by simp,
      by simp⟩
  | append_singleton L' q ihL =>
    obtain ⟨c, s⟩ := q
    intro hf hpos hids
    have hf' : ∀ q ∈ L', q.2 = f q.1 := fun q hq => hf q (List.mem_append_left _ hq)
    have hpos' : ∀ q ∈ L', 0 < q.2 := fun q hq => hpos q (List.mem_append_left _ hq)
    have hids' : ∀ q ∈ L', 0 ≤ q.1 := fun q hq => hids q (List.mem_append_left _ hq)
    obtain ⟨A, m, hfold, hlen, hsorted, hnd, hmem, hcard, hdrop⟩ := ihL hf' hpos' hids'
    have hqmem : (c, s) ∈ L' ++ [(c, s)] :=
      List.mem_append_right _ (List.mem_singleton_self _)
    have hs : s = f c := hf (c, s) hqmem
    have hspos : 0 < s := hpos (c, s) hqmem
    have hcnn : 0 ≤ c := hids (c, s) hqmem
    have hApos : ∀ p ∈ A, 0 < p.1 := fun p hp => (hmem p hp).2.1
    have hAids : ∀ p ∈ A, 0 ≤ p.2 := fun p hp => (hmem p hp).2.2
    have hF' : ((L' ++ [(c, s)]).map Prod.fst).toFinset =
        insert c (L'.map Prod.fst).toFinset := by
      simp only [List.map_append, List.map_cons, List.map_nil, List.toFinset_append,
        List.toFinset_cons, List.toFinset_nil, Finset.union_insert, Finset.union_empty]
    by_cases hcin : c ∈ A.map Prod.snd
    · -- the candidate is already stored with the same score: the frame lemma applies
      obtain ⟨p₀, hp₀A, hp₀c⟩ := List.mem_map.mp hcin
      have hp₀f : p₀.1 = f p₀.2 := hf' (p₀.2, p₀.1) (hmem p₀ hp₀A).1
      have hp₀1 : p₀.1 = s := by rw [hp₀f, hp₀c, ← hs]
      have hp₀eq : p₀ = (s, c) := by
        obtain ⟨a, b⟩ := p₀
        simp only at hp₀1 hp₀c
        rw [hp₀1, hp₀c]
      have hcF : c ∈ (L'.map Prod.fst).toFinset :=
        List.mem_toFinset.mpr (hp₀c ▸ List.mem_map_of_mem Prod.fst (hmem p₀ hp₀A).1)
      obtain ⟨A₁, A₂, hA12⟩ := List.append_of_mem hp₀A
      have hbound : ∀ p ∈ A₁, s ≤ p.1 := by
        intro p hp
        have h := (List.pairwise_append.mp (hA12 ▸ hsorted)).2.2 p hp p₀
          (List.mem_cons_self _ _)
        exact hp₀1 ▸ h
      have hins : insert_rec c s (A ++ List.replicate m ((0:ℚ), (-1:ℤ))) =
          A ++ List.replicate m ((0:ℚ), (-1:ℤ)) := by
        rw [hA12, hp₀eq, List.append_assoc, List.cons_append,
          insert_rec_frame c s A₁ (A₂ ++ List.replicate m ((0:ℚ), (-1:ℤ))) s hbound]
      refine ⟨A, m, ?_, hlen, hsorted, hnd, ?_, ?_, ?_⟩
      · simp only [List.foldl_append, List.foldl_cons, List.foldl_nil]
        rw [hfold]
        exact hins
      · exact fun p hp => ⟨List.mem_append_left _ (hmem p hp).1, (hmem p hp).2.1,
          (hmem p hp).2.2⟩
      · rw [hF', Finset.insert_eq_self.mpr hcF]
        exact hcard
      · intro q' hq' hq'nid p hp
        rcases List.mem_append.mp hq' with h | h
        · exact hdrop q' h hq'nid p hp
        · have hq'eq : q' = (c, s) := List.mem_singleton.mp h
          rw [hq'eq] at hq'nid
          exact absurd hcin hq'nid
    · by_cases hcF : c ∈ L'.map Prod.fst
      · -- seen before but not stored: only possible when the table is full and the
        -- (consistent) score is at most every stored score, so the insert is rejected
        have hcFin : c ∈ (L'.map Prod.fst).toFinset := List.mem_toFinset.mpr hcF
        have hm0 : m = 0 := by
          by_contra hm
          have hsat := topk_ids_sat (Nat.pos_of_ne_zero hm) hlen hcard hnd (fun p hp => (hmem p hp).1)
          exact hcin (List.mem_toFinset.mp (hsat ▸ hcFin))
        subst hm0
        obtain ⟨q₀, hq₀L, hq₀1⟩ := List.mem_map.mp hcF
        have hq₀2 : q₀.2 = s := by rw [hf' q₀ hq₀L, hq₀1, ← hs]
        have hq₀nid : q₀.1 ∉ A.map Prod.snd := by rw [hq₀1]; exact hcin
        have hsle : ∀ p ∈ A, s ≤ p.1 := by
          intro p hp
          have h := hdrop q₀ hq₀L hq₀nid p hp
          exact hq₀2 ▸ h
        have hins : insert_rec c s A = A := insert_rec_reject c s A hcin hsle
        refine ⟨A, 0, ?_, hlen, hsorted, hnd, ?_, ?_, ?_⟩
        · simp only [List.foldl_append, List.foldl_cons, List.foldl_nil]
          rw [hfold]
          simp only [List.replicate_zero, List.append_nil]
          exact hins
        · exact fun p hp => ⟨List.mem_append_left _ (hmem p hp).1, (hmem p hp).2.1,
            (hmem p hp).2.2⟩
        · rw [hF', Finset.insert_eq_self.mpr hcFin]
          exact hcard
        · intro q' hq' hq'nid p hp
          rcases List.mem_append.mp hq' with h | h
          · exact hdrop q' h hq'nid p hp
          · have hq'eq : q' = (c, s) := List.mem_singleton.mp h
            rw [hq'eq]
            exact hsle p hp
      · -- a genuinely fresh candidate
        have hcFn : c ∉ (L'.map Prod.fst).toFinset := fun h => hcF (List.mem_toFinset.mp h)
        rcases Nat.eq_zero_or_pos m with hm0 | hmpos
        · -- full table: a minimal element is displaced
          subst hm0
          have hKD : K ≤ (L'.map Prod.fst).toFinset.card := by omega
          obtain ⟨w, hwmem, hwbound, hwperm, hsorted'⟩ :=
            insert_rec_fresh_full A c s hsorted hnd hcin
          have hlenA' : (insert_rec c s A).length = A.length := by
            have h := hwperm.length_eq
            simpa using h
          have hndA' : ((insert_rec c s A).map Prod.snd).Nodup := by
            have h : ((w :: insert_rec c s A).map Prod.snd).Nodup := by
              rw [(hwperm.map Prod.snd).nodup_iff]
              simp only [List.map_cons]
              exact List.nodup_cons.mpr ⟨hcin, hnd⟩
            rw [List.map_cons] at h
            exact h.of_cons
          refine ⟨insert_rec c s A, 0, ?_, by omega, hsorted', hndA', ?_, ?_, ?_⟩
          · simp only [List.foldl_append, List.foldl_cons, List.foldl_nil]
            rw [hfold]
            simp only [List.replicate_zero, List.append_nil]
          · intro p hp
            have hpin : p ∈ (s, c) :: A := hwperm.mem_iff.mp (List.mem_cons_of_mem _ hp)
            rcases List.mem_cons.mp hpin with h | h
            · rw [h]
              exact ⟨List.mem_append_right _ (List.mem_singleton_self _), hspos, hcnn⟩
            · exact ⟨List.mem_append_left _ (hmem p h).1, (hmem p h).2.1, (hmem p h).2.2⟩
          · rw [hF', Finset.card_insert_of_not_mem hcFn, hlenA']
            omega
          · intro q' hq' hq'nid p hp
            rcases List.mem_append.mp hq' with hqL | hqR
            · by_cases hq'A : q'.1 ∈ A.map Prod.snd
              · obtain ⟨p₁, hp₁A, hp₁id⟩ := List.mem_map.mp hq'A
                have hp₁f : p₁.1 = f p₁.2 := hf' (p₁.2, p₁.1) (hmem p₁ hp₁A).1
                have hq'f : q'.2 = f q'.1 := hf' q' hqL
                have hq'p₁ : q'.2 = p₁.1 := by rw [hq'f, hp₁f, hp₁id]
                have hp₁w : p₁ = w := by
                  by_contra hne
                  have h1 : p₁ ∈ w :: insert_rec c s A :=
                    hwperm.mem_iff.mpr (List.mem_cons_of_mem _ hp₁A)
                  rcases List.mem_cons.mp h1 with h2 | h2
                  · exact hne h2
                  · exact hq'nid (hp₁id ▸ List.mem_map_of_mem Prod.snd h2)
                have hpin : p ∈ (s, c) :: A := hwperm.mem_iff.mp (List.mem_cons_of_mem _ hp)
                calc q'.2 = w.1 := by rw [hq'p₁, hp₁w]
                  _ ≤ p.1 := hwbound p hpin
              · have hold := hdrop q' hqL hq'A
                have hpin : p ∈ (s, c) :: A := hwperm.mem_iff.mp (List.mem_cons_of_mem _ hp)
                rcases List.mem_cons.mp hpin with h | h
                · rcases List.mem_cons.mp hwmem with hw | hw
                  · exfalso
                    have hAA : (insert_rec c s A).Perm A := by
                      have h3 := hwperm
                      rw [← hw] at h3
                      exact h3.cons_inv
                    have h4 : (s, c) ∈ A := hAA.mem_iff.mp (h ▸ hp)
                    exact hcin (List.mem_map_of_mem Prod.snd h4)
                  · have h1 : q'.2 ≤ w.1 := hold w hw
                    have h2 : w.1 ≤ s := hwbound (s, c) (List.mem_cons_self _ _)
                    rw [h]
                    exact le_trans h1 h2
                · exact hold p h
            · have hq'eq : q' = (c, s) := List.mem_singleton.mp hqR
              have h1 : (s, c) ∈ w :: insert_rec c s A :=
                hwperm.mem_iff.mpr (List.mem_cons_self _ _)
              rcases List.mem_cons.mp h1 with h2 | h2
              · have hpin : p ∈ (s, c) :: A := hwperm.mem_iff.mp (List.mem_cons_of_mem _ hp)
                have hb := hwbound p hpin
                rw [← h2] at hb
                rw [hq'eq]
                exact hb
              · exfalso
                rw [hq'eq] at hq'nid
                exact hq'nid (List.mem_map_of_mem Prod.snd h2)
        · -- free sentinel slots: the fresh candidate is simply added
          obtain ⟨B, hBeq, hBperm, hBsorted⟩ :=
            insert_rec_fresh_pad A c s m hmpos hsorted hApos hAids hnd hspos hcnn hcin
          have hsat := topk_ids_sat hmpos hlen hcard hnd (fun p hp => (hmem p hp).1)
          have hlenB : B.length = A.length + 1 := by
            have h := hBperm.length_eq
            simpa using h
          have hAD : A.length = (L'.map Prod.fst).toFinset.card := by
            rw [← hsat, List.toFinset_card_of_nodup hnd, List.length_map]
          have hndB : (B.map Prod.snd).Nodup := by
            rw [(hBperm.map Prod.snd).nodup_iff]
            simp only [List.map_cons]
            exact List.nodup_cons.mpr ⟨hcin, hnd⟩
          refine ⟨B, m - 1, ?_, by omega, hBsorted, hndB, ?_, ?_, ?_⟩
          · simp only [List.foldl_append, List.foldl_cons, List.foldl_nil]
            rw [hfold]
            exact hBeq
          · intro p hp
            have hpin : p ∈ (s, c) :: A := hBperm.mem_iff.mp hp
            rcases List.mem_cons.mp hpin with h | h
            · rw [h]
              exact ⟨List.mem_append_right _ (List.mem_singleton_self _), hspos, hcnn⟩
            · exact ⟨List.mem_append_left _ (hmem p h).1, (hmem p h).2.1, (hmem p h).2.2⟩
          · rw [hF', Finset.card_insert_of_not_mem hcFn]
            omega
          · intro q' hq' hq'nid p hp
            rcases List.mem_append.mp hq' with hqL | hqR
            · exfalso
              have h1 : q'.1 ∈ (L'.map Prod.fst).toFinset :=
                List.mem_toFinset.mpr (List.mem_map_of_mem Prod.fst hqL)
              rw [← hsat] at h1
              obtain ⟨p₁, hp₁A, hp₁id⟩ := List.mem_map.mp (List.mem_toFinset.mp h1)
              have h2 : p₁ ∈ B := hBperm.mem_iff.mpr (List.mem_cons_of_mem _ hp₁A)
              exact hq'nid (hp₁id ▸ List.mem_map_of_mem Prod.snd h2)
            · exfalso
              have hq'eq : q' = (c, s) := List.mem_singleton.mp hqR
              have h2 : (s, c) ∈ B := hBperm.mem_iff.mpr (List.mem_cons_self _ _)
              rw [hq'eq] at hq'nid
              exact hq'nid (List.mem_map_of_mem Prod.snd h2)

/-- C1, counterexample to the unconditional claim: with K = 3 slots, the insert
sequence (1, 8), (2, 5), (3, 3), (2, 9) — candidate 2 re-inserted with a higher
score — leaves candidate 2 occupying two slots, because the dedup test compares
the slot id against the *current* incoming id, which changes after a displacement
swap. Moreover an insert with score 0 is never stored even in an empty table, and
an insert with the sentinel id -1 is dropped: the slots do not hold "exactly the
distinct candidates inserted" without positivity restrictions. -/
theorem C1_counterexample :
    ¬ ((([((1:ℤ), (8:ℚ)), (2, 5), (3, 3), (2, 9)].foldl
          (fun X q => insert_rec q.1 q.2 X)
          (List.replicate 3 ((0:ℚ), (-1:ℤ)))).map Prod.snd).Nodup) ∧
    [((5:ℤ), (0:ℚ))].foldl (fun X q => insert_rec q.1 q.2 X)
        (List.replicate 3 ((0:ℚ), (-1:ℤ))) =
      List.replicate 3 ((0:ℚ), (-1:ℤ)) ∧
    [((-1:ℤ), (1:ℚ))].foldl (fun X q => insert_rec q.1 q.2 X)
        (List.replicate 3 ((0:ℚ), (-1:ℤ))) =
      List.replicate 3 ((0:ℚ), (-1:ℤ)) := by
  refine ⟨by decide, by decide, by decide⟩

/-- Witness for C1_topK_invariant at K = 1, events [(0, 1)], consistent score
function fun _ => 1. -/
theorem C1_topK_invariant_witness :
    (∀ q ∈ [((0:ℤ), (1:ℚ))], q.2 = (fun _ => (1:ℚ)) q.1) ∧
    (∀ q ∈ [((0:ℤ), (1:ℚ))], 0 < q.2) ∧
    (∀ q ∈ [((0:ℤ), (1:ℚ))], 0 ≤ q.1) ∧
    (∃ A m,
      [((0:ℤ), (1:ℚ))].foldl (fun X q => insert_rec q.1 q.2 X)
          (List.replicate 1 ((0:ℚ), (-1:ℤ))) =
        A ++ List.replicate m ((0:ℚ), (-1:ℤ)) ∧
      A.length + m = 1 ∧
      A.Pairwise (fun p q => q.1 ≤ p.1) ∧
      (A.map Prod.snd).Nodup ∧
      (∀ p ∈ A, (p.2, p.1) ∈ [((0:ℤ), (1:ℚ))] ∧ 0 < p.1 ∧ 0 ≤ p.2) ∧
      A.length = min 1 (([((0:ℤ), (1:ℚ))].map Prod.fst).toFinset.card) ∧
      (∀ q ∈ [((0:ℤ), (1:ℚ))], q.1 ∉ A.map Prod.snd → ∀ p ∈ A, q.2 ≤ p.1)) :=
  ⟨by decide, by decide, by decide,
    C1_topK_invariant 1 (fun _ => (1:ℚ)) [((0:ℤ), (1:ℚ))] (by decide) (by decide)
      (by decide)⟩

theorem getD_replicate {α : Type} (a d : α) (n i : ℕ) :
    (List.replicate n a).getD i d = if i < n then a else d := by
  rcases lt_or_ge i n with h | h
  · rw [if_pos h, List.getD_eq_getElem?_getD,
      List.getElem?_eq_getElem (by simpa using h), List.getElem_replicate,
      Option.getD_some]
  · rw [if_neg (not_lt.mpr h), List.getD_eq_getElem?_getD,
      List.getElem?_eq_none (by simpa using h), Option.getD_none]

theorem set_replicate_self {α : Type} (a : α) :
    ∀ (n i : ℕ), (List.replicate n a).set i a = List.replicate n a := by
  intro n
  induction n with
  | zero => intro i; rfl
  | succ n ih =>
    intro i
    cases i with
    | zero => simp [List.replicate_succ]
    | succ i => simp [List.replicate_succ, ih]

theorem insert_rec_nil (rec : ℤ) (score : ℚ) : insert_rec rec score [] = [] := rfl

theorem insertTables_replicate_nil (n doi : ℕ) (rec : ℤ) (score : ℚ) :
    insertTables doi rec score (List.replicate n []) = List.replicate n [] := by
  unfold insertTables
  rw [getD_replicate]
  rcases lt_or_ge doi n with h | h
  · rw [if_pos h, insert_rec_nil, set_replicate_self]
  · rw [if_neg (not_lt.mpr h), insert_rec_nil, set_replicate_self]

theorem fold_insert_replicate_nil (n : ℕ) (scores : List (ℕ × ℕ × ℚ)) :
    scores.foldl
      (fun tb e =>
        insertTables e.2.1 (e.1 : ℤ) e.2.2 (insertTables e.1 (e.2.1 : ℤ) e.2.2 tb))
      (List.replicate n []) = List.replicate n [] := by
  induction scores with
  | nil => rfl
  | cons e es ih =>
    rw [List.foldl_cons, insertTables_replicate_nil, insertTables_replicate_nil]
    exact ih

theorem filter_pad (K : ℕ) :
    (List.replicate K ((0:ℚ), (-1:ℤ))).filter
      (fun p => decide (0 < p.1) && decide (0 ≤ p.2)) = [] := by
  induction K with
  | zero => rfl
  | succ K ih =>
    rw [List.replicate_succ, List.filter_cons]
    simp only [decide_eq_true_eq]
    rw [if_neg (by simp)]
    exact ih

theorem drain_replicate (n K : ℕ) :
    drain n (List.replicate n (List.replicate K ((0:ℚ), (-1:ℤ)))) = [] := by
  unfold drain
  rw [List.flatMap_eq_nil_iff]
  intro doi _
  rw [getD_replicate]
  rcases lt_or_ge doi n with h | h
  · rw [if_pos h, filter_pad, List.map_nil]
  · rw [if_neg (not_lt.mpr h)]
    rfl

theorem grouped_snd_ne_nil {ρ α : Type} [DecidableEq α] (key : ρ → α) :
    ∀ (rows : List ρ) (g : α × List ρ), g ∈ grouped key rows → g.2 ≠ [] := by
  intro rows
  induction rows with
  | nil => intro g hg; simp [grouped] at hg
  | cons r rs ih =>
    intro g hg
    rw [grouped] at hg
    cases hgr : grouped key rs with
    | nil =>
      rw [hgr] at hg
      have hge : g = (key r, [r]) := by simpa using hg
      rw [hge]
      simp
    | cons p rest =>
      obtain ⟨k, run⟩ := p
      rw [hgr] at hg
      have hg2 : g ∈ (if key r = k then (k, r :: run) :: rest
          else (key r, [r]) :: (k, run) :: rest) := hg
      by_cases hk : key r = k
      · rw [if_pos hk] at hg2
        rcases List.mem_cons.mp hg2 with h | h
        · rw [h]; simp
        · exact ih g (hgr ▸ List.mem_cons_of_mem _ h)
      · rw [if_neg hk] at hg2
        rcases List.mem_cons.mp hg2 with h | h
        · rw [h]; simp
        · exact ih g (hgr ▸ h)

theorem jaccard_similarity_some (us1 us2 : List ℕ) (h1 : us1 ≠ []) :
    ∃ s, jaccard_similarity us1 us2 = some s := by
  unfold jaccard_similarity
  have h := (jaccardCounts_sum_eq_zero us1 us2).not.mpr (by intro h2; exact h1 h2.1)
  exact ⟨_, by rw [if_neg h]⟩

theorem mapM_jaccard_some :
    ∀ (l : List (Bucket × Bucket)), (∀ q ∈ l, q.1.2.2.2 ≠ []) →
      ∃ scores, l.mapM
        (fun q => (jaccard_similarity q.1.2.2.2 q.2.2.2.2).map
          (fun s => (q.1.2.2.1, q.2.2.2.1, s))) = some scores := by
  intro l
  induction l with
  | nil => exact fun _ => ⟨[], rfl⟩
  | cons q l ih =>
    intro hq
    obtain ⟨scores, hsc⟩ := ih (fun q' hq' => hq q' (List.mem_cons_of_mem _ hq'))
    obtain ⟨s, hjs⟩ := jaccard_similarity_some q.1.2.2.2 q.2.2.2.2
      (hq q (List.mem_cons_self _ _))
    refine ⟨(q.1.2.2.1, q.2.2.2.1, s) :: scores, ?_⟩
    rw [List.mapM_cons, hjs, hsc]
    rfl

theorem minhash_round_some (h : ℕ → ℤ) (t : ℕ → ℚ) (buckets : List Bucket)
    (hne : ∀ b ∈ buckets, b.2.2.2 ≠ []) :
    ∃ out, minhash_round h t buckets = some out ∧ ∀ b ∈ out.1, b.2.2.2 ≠ [] := by
  have hhashed : ∀ b ∈ buckets.enum.map
      (fun p => ((minhashDigest h p.2.2.2.2, t p.1, p.2.2.2.1, p.2.2.2.2) : Bucket)),
      b.2.2.2 ≠ [] := by
    intro b hb
    obtain ⟨p, hp, hpb⟩ := List.mem_map.mp hb
    have hp2 : p.2 ∈ buckets := by
      have h2 := List.mem_map_of_mem Prod.snd hp
      rwa [List.enum_map_snd] at h2
    rw [← hpb]
    exact hne p.2 hp2
  have hsmem : ∀ b ∈ (buckets.enum.map
      (fun p => ((minhashDigest h p.2.2.2.2, t p.1, p.2.2.2.1, p.2.2.2.2) : Bucket))).insertionSort
        bucketLE, b.2.2.2 ≠ [] := by
    intro b hb
    exact hhashed b ((List.perm_insertionSort bucketLE _).mem_iff.mp hb)
  obtain ⟨scores, hsc⟩ := mapM_jaccard_some
    (((buckets.enum.map
        (fun p => ((minhashDigest h p.2.2.2.2, t p.1, p.2.2.2.1, p.2.2.2.2) : Bucket))).insertionSort
          bucketLE).zip
      ((buckets.enum.map
        (fun p => ((minhashDigest h p.2.2.2.2, t p.1, p.2.2.2.1, p.2.2.2.2) : Bucket))).insertionSort
          bucketLE).tail)
    (by
      intro q hq
      obtain ⟨a, b⟩ := q
      exact hsmem a (List.of_mem_zip hq).1)
  refine ⟨((buckets.enum.map
      (fun p => ((minhashDigest h p.2.2.2.2, t p.1, p.2.2.2.1, p.2.2.2.2) : Bucket))).insertionSort
        bucketLE, scores), ?_, hsmem⟩
  simp only [minhash_round]
  rw [hsc]
  rfl

theorem foldlM_rounds_tables_nil (n : ℕ) :
    ∀ (rounds : List Round) (buckets : List Bucket),
      (∀ b ∈ buckets, b.2.2.2 ≠ []) →
      ∃ buckets',
        (rounds.foldlM
            (fun st (r : Round) =>
              (minhash_round r.1 r.2 st.1).map
                (fun br =>
                  (br.1,
                    br.2.foldl
                      (fun tb e =>
                        insertTables e.2.1 (e.1 : ℤ) e.2.2
                          (insertTables e.1 (e.2.1 : ℤ) e.2.2 tb))
                      st.2)))
            ((buckets, List.replicate n []) : List Bucket × List (List (ℚ × ℤ)))) =
          some (buckets', List.replicate n []) ∧
        ∀ b ∈ buckets', b.2.2.2 ≠ [] := by
  intro rounds
  induction rounds with
  | nil => exact fun buckets hb => ⟨buckets, rfl, hb⟩
  | cons r rs ih =>
    intro buckets hb
    obtain ⟨out, hout, hout2⟩ := minhash_round_some r.1 r.2 buckets hb
    obtain ⟨buckets', h1, h2⟩ := ih out.1 hout2
    refine ⟨buckets', ?_, h2⟩
    rw [List.foldlM_cons]
    show ((minhash_round r.1 r.2 buckets).map _ >>= _) = _
    rw [hout]
    show (rs.foldlM _ (out.1, (out.2.foldl _ (List.replicate n [])))) = _
    rw [fold_insert_replicate_nil]
    exact h1

theorem stash_sorted_ne_nil {α : Type} [DecidableEq α] (r : α → α → Prop) [DecidableRel r]
    (rows : List α) (h : rows ≠ []) : stash.sorted r rows ≠ [] := by
  unfold stash.sorted
  intro hnil
  rw [List.dedup_eq_nil] at hnil
  have hlen := (List.perm_insertionSort r rows).length_eq
  rw [hnil] at hlen
  exact h (List.length_eq_zero.mp hlen.symm)

theorem postprocess_nil (raw_dois : List String) (h : raw_dois ≠ []) :
    postprocess raw_dois [] = some [] := by
  obtain ⟨l, ls, rfl⟩ := List.exists_cons_of_ne_nil h
  rfl

theorem recommendations_K0 (rounds : List Round) (edges : List (ℕ × ℕ)) (n : ℕ) :
    recommendations 0 rounds edges n = some [] := by
  have hb0 : ∀ b ∈ (grouped Prod.fst edges).map
      (fun g => ((0, 0, g.1, (g.2.map Prod.snd).insertionSort (· ≤ ·)) : Bucket)),
      b.2.2.2 ≠ [] := by
    intro b hb
    obtain ⟨g, hg, hgb⟩ := List.mem_map.mp hb
    rw [← hgb]
    show (g.2.map Prod.snd).insertionSort (· ≤ ·) ≠ []
    intro hnil
    apply grouped_snd_ne_nil Prod.fst edges g hg
    have hlen := (List.perm_insertionSort (· ≤ ·) (g.2.map Prod.snd)).length_eq
    rw [hnil] at hlen
    simp only [List.length_nil, List.length_map] at hlen
    exact List.length_eq_zero.mp hlen.symm
  obtain ⟨buckets', h1, _⟩ := foldlM_rounds_tables_nil n rounds
    ((grouped Prod.fst edges).map
      (fun g => ((0, 0, g.1, (g.2.map Prod.snd).insertionSort (· ≤ ·)) : Bucket))) hb0
  simp only [recommendations, List.replicate_zero]
  rw [h1]
  have hd : drain n (List.replicate n ([] : List (ℚ × ℤ))) = [] := by
    have h2 := drain_replicate n 0
    rwa [List.replicate_zero] at h2
  show some (drain n (List.replicate n [])) = some []
  rw [hd]

theorem recommendations_rounds_nil (K : ℕ) (edges : List (ℕ × ℕ)) (n : ℕ) :
    recommendations K [] edges n = some [] := by
  simp only [recommendations, List.foldlM_nil]
  show some (drain n (List.replicate n (List.replicate K ((0:ℚ), (-1:ℤ))))) = some []
  rw [drain_replicate]

/-- C6, counterexample: a run with the invalid configuration
recommendations_per_doi = 0 and minhash_rounds = 0 (empty round list) is not
rejected: on a one-edge input it completes normally with empty output, while
preprocess unconditionally constructs its nine stashes
(`preprocessStashCount`). No validation code exists anywhere on the `main`
path. -/
theorem C6_counterexample :
    main_run 0 [] [[("u1", "a")]] = some [] ∧ preprocessStashCount ≠ 0 :=
  ⟨by decide, by decide⟩

/-- C6 (amended): the code performs no configuration validation. For every
invalid configuration — K = 0 (`recommendations_per_doi ≤ 0` empties each slot
block) or an empty round list (`minhash_rounds ≤ 0` empties the round loop) —
and every input containing at least one edge, the run completes normally and
emits an empty recommendation list; preprocess has by then executed its nine
stash constructions rather than zero. -/
theorem C6_no_validation (K : ℕ) (rounds : List Round)
    (files : List (List (String × String)))
    (hinv : K = 0 ∨ rounds = [])
    (hne : files.flatten ≠ []) :
    main_run K rounds files = some [] ∧ preprocessStashCount ≠ 0 := by
  refine ⟨?_, by decide⟩
  have hrec : recommendations K rounds (preprocess files.flatten).2
      (preprocess files.flatten).1.length = some [] := by
    rcases hinv with h | h
    · rw [h]
      exact recommendations_K0 rounds (preprocess files.flatten).2
        (preprocess files.flatten).1.length
    · rw [h]
      exact recommendations_rounds_nil K (preprocess files.flatten).2
        (preprocess files.flatten).1.length
  have hdois : (preprocess files.flatten).1 ≠ [] := by
    show stash.sorted strLE (files.flatten.map Prod.snd) ≠ []
    apply stash_sorted_ne_nil
    intro h2
    exact hne (List.map_eq_nil_iff.mp h2)
  simp only [main_run]
  rw [hrec]
  exact postprocess_nil (preprocess files.flatten).1 hdois

/-- Witness for C6_no_validation at K = 0, no rounds, a single one-edge file. -/
theorem C6_no_validation_witness :
    ((0:ℕ) = 0 ∨ ([] : List Round) = []) ∧
    ([[("u1", "a")]] : List (List (String × String))).flatten ≠ [] ∧
    (main_run 0 [] [[("u1", "a")]] = some [] ∧ preprocessStashCount ≠ 0) :=
  ⟨Or.inl rfl, by decide,
    C6_no_validation 0 [] [[("u1", "a")]] (Or.inl rfl) (by decide)⟩

theorem insert_rec_length (rec : ℤ) (score : ℚ) :
    ∀ (X : List (ℚ × ℤ)), (insert_rec rec score X).length = X.length := by
  intro X
  induction X generalizing rec score with
  | nil => rfl
  | cons q X' ih =>
    obtain ⟨s, r⟩ := q
    by_cases hb : r = rec
    · rw [insert_rec, if_pos hb]
    · by_cases hgt : score > s
      · rw [insert_rec, if_neg hb, if_pos hgt]
        simp only [List.length_cons, ih]
      · rw [insert_rec, if_neg hb, if_neg hgt]
        simp only [List.length_cons, ih]

theorem mapM_some_mem {α β : Type} (f : α → Option β) :
    ∀ (l : List α) (ys : List β), l.mapM f = some ys → ∀ y ∈ ys, ∃ x ∈ l, f x = some y := by
  intro l
  induction l with
  | nil =>
    intro ys hys y hy
    rw [List.mapM_nil] at hys
    have hn : ys = [] := by
      have h := hys
      simp only [pure] at h
      exact (Option.some.inj h).symm
    rw [hn] at hy
    exact absurd hy (List.not_mem_nil _)
  | cons x l ih =>
    intro ys hys y hy
    rw [List.mapM_cons] at hys
    cases hfx : f x with
    | none => rw [hfx] at hys; exact absurd hys (by simp)
    | some b =>
      rw [hfx] at hys
      cases hrest : l.mapM f with
      | none =>
        rw [hrest] at hys
        exact absurd hys (by simp)
      | some bs =>
        rw [hrest] at hys
        have hbs : ys = b :: bs := by
          have h := hys
          simp only [Option.bind_eq_bind, Option.some_bind, pure] at h
          exact (Option.some.inj h).symm
        rw [hbs] at hy
        rcases List.mem_cons.mp hy with h | h
        · exact ⟨x, List.mem_cons_self _ _, h ▸ hfx⟩
        · obtain ⟨x', hx', hfx'⟩ := ih bs hrest y h
          exact ⟨x', List.mem_cons_of_mem _ hx', hfx'⟩

theorem grouped_run_key {ρ α : Type} [DecidableEq α] (key : ρ → α) :
    ∀ (rows : List ρ) (g : α × List ρ), g ∈ grouped key rows → ∀ r ∈ g.2, key r = g.1 := by
  intro rows
  induction rows with
  | nil => intro g hg; simp [grouped] at hg
  | cons r rs ih =>
    intro g hg
    rw [grouped] at hg
    cases hgr : grouped key rs with
    | nil =>
      rw [hgr] at hg
      have hge : g = (key r, [r]) := by simpa using hg
      intro x hx
      rw [hge] at hx ⊢
      have hxr : x = r := by simpa using hx
      rw [hxr]
    | cons p rest =>
      obtain ⟨k, run⟩ := p
      rw [hgr] at hg
      have hg2 : g ∈ (if key r = k then (k, r :: run) :: rest
          else (key r, [r]) :: (k, run) :: rest) := hg
      by_cases hk : key r = k
      · rw [if_pos hk] at hg2
        rcases List.mem_cons.mp hg2 with h | h
        · intro x hx
          rw [h] at hx ⊢
          rcases List.mem_cons.mp hx with h2 | h2
          · rw [h2]; exact hk
          · exact ih (k, run) (hgr ▸ List.mem_cons_self _ _) x h2
        · exact ih g (hgr ▸ List.mem_cons_of_mem _ h)
      · rw [if_neg hk] at hg2
        rcases List.mem_cons.mp hg2 with h | h
        · intro x hx
          rw [h] at hx ⊢
          have hxr : x = r := by simpa using hx
          rw [hxr]
        · exact ih g (hgr ▸ h)

theorem grouped_run_sublist {ρ α : Type} [DecidableEq α] (key : ρ → α) :
    ∀ (rows : List ρ) (g : α × List ρ), g ∈ grouped key rows → g.2.Sublist rows := by
  intro rows
  induction rows with
  | nil => intro g hg; simp [grouped] at hg
  | cons r rs ih =>
    intro g hg
    rw [grouped] at hg
    cases hgr : grouped key rs with
    | nil =>
      rw [hgr] at hg
      have hge : g = (key r, [r]) := by simpa using hg
      rw [hge]
      simpa using (List.nil_sublist rs).cons₂ r
    | cons p rest =>
      obtain ⟨k, run⟩ := p
      rw [hgr] at hg
      have hg2 : g ∈ (if key r = k then (k, r :: run) :: rest
          else (key r, [r]) :: (k, run) :: rest) := hg
      by_cases hk : key r = k
      · rw [if_pos hk] at hg2
        rcases List.mem_cons.mp hg2 with h | h
        · rw [h]
          exact (ih (k, run) (hgr ▸ List.mem_cons_self _ _)).cons₂ r
        · exact (ih g (hgr ▸ List.mem_cons_of_mem _ h)).cons r
      · rw [if_neg hk] at hg2
        rcases List.mem_cons.mp hg2 with h | h
        · rw [h]
          simpa using (List.nil_sublist rs).cons₂ r
        · exact (ih g (hgr ▸ h)).cons r

theorem grouped_keys_sublist {ρ α : Type} [DecidableEq α] (key : ρ → α) :
    ∀ (rows : List ρ), ((grouped key rows).map Prod.fst).Sublist (rows.map key) := by
  intro rows
  induction rows with
  | nil => simp [grouped]
  | cons r rs ih =>
    rw [grouped]
    cases hgr : grouped key rs with
    | nil =>
      simp only [List.map_cons, List.map_nil]
      exact (List.nil_sublist _).cons₂ (key r)
    | cons p rest =>
      obtain ⟨k, run⟩ := p
      show ((if key r = k then (k, r :: run) :: rest
          else (key r, [r]) :: (k, run) :: rest).map Prod.fst).Sublist ((r :: rs).map key)
      by_cases hk : key r = k
      · rw [if_pos hk]
        have h2 : (((k, r :: run) :: rest).map Prod.fst) = (((k, run) :: rest).map Prod.fst) := by
          simp
        rw [h2, List.map_cons]
        exact (hgr ▸ ih).cons (key r)
      · rw [if_neg hk]
        simp only [List.map_cons]
        exact (hgr ▸ ih).cons₂ (key r)

theorem grouped_keys_chain_ne {ρ α : Type} [DecidableEq α] (key : ρ → α) :
    ∀ (rows : List ρ), ((grouped key rows).map Prod.fst).Chain' (· ≠ ·) := by
  intro rows
  induction rows with
  | nil => simp [grouped]
  | cons r rs ih =>
    rw [grouped]
    cases hgr : grouped key rs with
    | nil => simp
    | cons p rest =>
      obtain ⟨k, run⟩ := p
      show ((if key r = k then (k, r :: run) :: rest
          else (key r, [r]) :: (k, run) :: rest).map Prod.fst).Chain' (· ≠ ·)
      by_cases hk : key r = k
      · rw [if_pos hk]
        have h2 : ((k, r :: run) :: rest).map Prod.fst = ((k, run) :: rest).map Prod.fst := by
          simp
        rw [h2, ← hgr]
        exact ih
      · rw [if_neg hk]
        simp only [List.map_cons]
        rw [hgr] at ih
        simp only [List.map_cons] at ih
        exact List.Chain'.cons hk ih

theorem grouped_flatten {ρ α : Type} [DecidableEq α] (key : ρ → α) :
    ∀ (rows : List ρ), (grouped key rows).flatMap Prod.snd = rows := by
  intro rows
  induction rows with
  | nil => simp [grouped]
  | cons r rs ih =>
    rw [grouped]
    cases hgr : grouped key rs with
    | nil =>
      rw [hgr] at ih
      simp only [List.flatMap_nil] at ih
      show [(key r, [r])].flatMap Prod.snd = r :: rs
      simp [← ih]
    | cons p rest =>
      obtain ⟨k, run⟩ := p
      rw [hgr] at ih
      show (if key r = k then (k, r :: run) :: rest
          else (key r, [r]) :: (k, run) :: rest).flatMap Prod.snd = r :: rs
      by_cases hk : key r = k
      · rw [if_pos hk]
        simp only [List.flatMap_cons] at ih ⊢
        show r :: (run ++ rest.flatMap Prod.snd) = r :: rs
        rw [show run ++ rest.flatMap Prod.snd = rs from ih]
      · rw [if_neg hk]
        simp only [List.flatMap_cons] at ih ⊢
        show r :: ((k, run).2 ++ rest.flatMap Prod.snd) = r :: rs
        rw [show ((k, run).2 ++ rest.flatMap Prod.snd : List ρ) = rs from ih]

theorem grouped_key_complete {ρ α : Type} [DecidableEq α] (key : ρ → α)
    (rows : List ρ) (x : ρ) (hx : x ∈ rows) :
    key x ∈ (grouped key rows).map Prod.fst := by
  rw [← grouped_flatten key rows] at hx
  obtain ⟨g, hg, hxg⟩ := List.mem_flatMap.mp hx
  rw [grouped_run_key key rows g hg x hxg]
  exact List.mem_map_of_mem Prod.fst hg

theorem grouped_run_count {ρ α : Type} [DecidableEq α] (key : ρ → α)
    (rows : List ρ) (g : α × List ρ) (hg : g ∈ grouped key rows) :
    g.2.length ≤ rows.countP (fun r => decide (key r = g.1)) := by
  have hsub := grouped_run_sublist key rows g hg
  have hcount := hsub.countP_le (fun r => decide (key r = g.1))
  have hall : g.2.countP (fun r => decide (key r = g.1)) = g.2.length := by
    rw [List.countP_eq_length]
    intro a ha
    simpa using grouped_run_key key rows g hg a ha
  omega

theorem chain_ne_pairwise_lt {α : Type} [LinearOrder α] :
    ∀ (l : List α), l.Pairwise (· ≤ ·) → l.Chain' (· ≠ ·) → l.Pairwise (· < ·) := by
  intro l
  induction l with
  | nil => intro _ _; exact List.Pairwise.nil
  | cons a l ih =>
    intro hle hne
    obtain ⟨hhead, htail⟩ := List.pairwise_cons.mp hle
    have htailne : l.Chain' (· ≠ ·) := hne.tail
    have htaillt := ih htail htailne
    refine List.pairwise_cons.mpr ⟨?_, htaillt⟩
    intro b hb
    cases l with
    | nil => exact absurd hb (List.not_mem_nil _)
    | cons c l' =>
      have hac : a ≠ c := (List.chain'_cons.mp hne).1
      have halt : a < c := lt_of_le_of_ne (hhead c (List.mem_cons_self _ _)) hac
      rcases List.mem_cons.mp hb with h | h
      · rw [h]; exact halt
      · exact lt_of_lt_of_le halt ((List.pairwise_cons.mp htail).1 b h)

theorem grouped_keys_lt {ρ α : Type} [DecidableEq α] [LinearOrder α] (key : ρ → α)
    (rows : List ρ) (hsort : (rows.map key).Pairwise (· ≤ ·)) :
    ((grouped key rows).map Prod.fst).Pairwise (· < ·) :=
  chain_ne_pairwise_lt _ (hsort.sublist (grouped_keys_sublist key rows))
    (grouped_keys_chain_ne key rows)

theorem orderedInsert_two_key {ρ : Type} (f : ρ → ℕ) (R : ρ → ρ → Prop) (x : ρ) :
    ∀ (L : List ρ), L.Pairwise (fun a b => f a = f b → R a b) →
      (∀ y ∈ L, R x y) →
      (L.orderedInsert (fun a b => f a ≤ f b) x).Pairwise (fun a b => f a = f b → R a b) := by
  intro L
  induction L with
  | nil => intro _ _; simp
  | cons y L ih =>
    intro hL hx
    obtain ⟨hhead, htail⟩ := List.pairwise_cons.mp hL
    rw [List.orderedInsert]
    by_cases hle : f x ≤ f y
    · rw [if_pos hle]
      refine List.pairwise_cons.mpr ⟨?_, hL⟩
      intro z hz _
      exact hx z hz
    · rw [if_neg hle]
      refine List.pairwise_cons.mpr
        ⟨?_, ih htail (fun z hz => hx z (List.mem_cons_of_mem _ hz))⟩
      intro z hz
      rcases (List.mem_orderedInsert _).mp hz with h | h
      · intro hfy
        rw [h] at hfy
        exact absurd (le_of_eq hfy.symm) hle
      · exact hhead z h

theorem insertionSort_two_key {ρ : Type} (f : ρ → ℕ) (R : ρ → ρ → Prop) :
    ∀ (l : List ρ), l.Pairwise R →
      (l.insertionSort (fun a b => f a ≤ f b)).Pairwise (fun a b => f a = f b → R a b) := by
  intro l
  induction l with
  | nil => intro _; simp
  | cons x l ih =>
    intro hl
    obtain ⟨hhead, htail⟩ := List.pairwise_cons.mp hl
    rw [List.insertionSort]
    refine orderedInsert_two_key f R x _ (ih htail) ?_
    intro y hy
    exact hhead y ((List.perm_insertionSort _ _).mem_iff.mp hy)

theorem sorted_getD_le {α : Type} [LinearOrder α] {labels : List α}
    (hlab : labels.Pairwise (· < ·)) {i j : ℕ} (hij : i ≤ j) (hj : j < labels.length) (d : α) :
    labels.getD i d ≤ labels.getD j d := by
  rcases Nat.lt_or_ge i j with h2 | h2
  · have hi : i < labels.length := lt_trans h2 hj
    rw [List.getD_eq_getElem?_getD, List.getElem?_eq_getElem hi,
      List.getD_eq_getElem?_getD, List.getElem?_eq_getElem hj]
    simp only [Option.getD_some]
    exact le_of_lt (List.pairwise_iff_getElem.mp hlab i j hi hj h2)
  · have hij2 : i = j := by omega
    rw [hij2]

theorem sorted_getD_inj {α : Type} [LinearOrder α] {labels : List α}
    (hlab : labels.Pairwise (· < ·)) {i j : ℕ} (hi : i < labels.length)
    (hj : j < labels.length) (d : α) (h : labels.getD i d = labels.getD j d) : i = j := by
  by_contra hne
  rcases Nat.lt_or_ge i j with h2 | h2
  · have hlt := List.pairwise_iff_getElem.mp hlab i j hi hj h2
    rw [List.getD_eq_getElem?_getD, List.getElem?_eq_getElem hi,
      List.getD_eq_getElem?_getD, List.getElem?_eq_getElem hj] at h
    simp only [Option.getD_some] at h
    exact absurd h (ne_of_lt hlt)
  · have h3 : j < i := by omega
    have hlt := List.pairwise_iff_getElem.mp hlab j i hj hi h3
    rw [List.getD_eq_getElem?_getD, List.getElem?_eq_getElem hi,
      List.getD_eq_getElem?_getD, List.getElem?_eq_getElem hj] at h
    simp only [Option.getD_some] at h
    exact absurd h.symm (ne_of_lt hlt)

theorem getD_mem {α : Type} {labels : List α} {i : ℕ} (hi : i < labels.length) (d : α) :
    labels.getD i d ∈ labels := by
  rw [List.getD_eq_getElem?_getD, List.getElem?_eq_getElem hi]
  simp only [Option.getD_some]
  exact List.getElem_mem hi

theorem labelSeek_bound {α : Type} [DecidableEq α] (k : α) :
    ∀ (labels : List α) (label : α) (index : ℕ) (i' : ℕ) (l' : α) (ls' : List α),
      labelSeek k label index labels = some (i', l', ls') →
      i' + ls'.length ≤ index + labels.length := by
  intro labels
  induction labels with
  | nil =>
    intro label index i' l' ls' h
    rw [labelSeek] at h
    by_cases hk : label = k
    · rw [if_pos hk] at h
      have h' := Option.some.inj h
      injection h' with h1 h23
      injection h23 with h2 h3
      rw [← h1, ← h3]
    · rw [if_neg hk] at h
      exact absurd h (by simp)
  | cons l ls ih =>
    intro label index i' l' ls' h
    rw [labelSeek] at h
    by_cases hk : label = k
    · rw [if_pos hk] at h
      have h' := Option.some.inj h
      injection h' with h1 h23
      injection h23 with h2 h3
      rw [← h1, ← h3]
    · rw [if_neg hk] at h
      have := ih l (index + 1) i' l' ls' h
      simp only [List.length_cons]
      omega

theorem numberedAux_fst_le {α β : Type} [DecidableEq α] :
    ∀ (rows : List (α × β)) (label : α) (index : ℕ) (labels : List α),
      ∀ e ∈ numberedAux label index labels rows, e.1 ≤ index + labels.length := by
  intro rows
  induction rows with
  | nil => intro label index labels e he; simp [numberedAux] at he
  | cons row rows' ih =>
    obtain ⟨k, b⟩ := row
    intro label index labels e he
    rw [numberedAux] at he
    cases hseek : labelSeek k label index labels with
    | none => rw [hseek] at he; exact absurd he (List.not_mem_nil _)
    | some res =>
      obtain ⟨i', l', ls'⟩ := res
      rw [hseek] at he
      have hbound := labelSeek_bound k labels label index i' l' ls' hseek
      rcases List.mem_cons.mp he with h | h
      · rw [h]
        simpa using Nat.le_trans (Nat.le_add_right i' ls'.length) hbound
      · have := ih l' i' ls' e h
        omega

theorem numbered_fst_lt {α β : Type} [DecidableEq α] (rows : List (α × β)) (labels : List α) :
    ∀ e ∈ numbered rows labels, e.1 < labels.length := by
  intro e he
  cases labels with
  | nil => simp [numbered] at he
  | cons l ls =>
    have h := numberedAux_fst_le rows l 0 ls e he
    simp only [List.length_cons]
    omega

theorem preprocess_fst_lt (raw : List (String × String)) :
    ∀ e ∈ (preprocess raw).2, e.1 < (preprocess raw).1.length := by
  intro e he
  exact numbered_fst_lt _ _ e he

theorem minhash_round_spec (h : ℕ → ℤ) (t : ℕ → ℚ) (buckets : List Bucket)
    (hne : ∀ b ∈ buckets, b.2.2.2 ≠ []) :
    ∃ out, minhash_round h t buckets = some out ∧
      (∀ b ∈ out.1, ∃ b₀ ∈ buckets, b.2.2.1 = b₀.2.2.1 ∧ b.2.2.2 = b₀.2.2.2) ∧
      (∀ e ∈ out.2, (∃ b₀ ∈ buckets, e.1 = b₀.2.2.1) ∧
        (∃ b₀ ∈ buckets, e.2.1 = b₀.2.2.1)) := by
  have hhashed : ∀ b ∈ buckets.enum.map
      (fun p => ((minhashDigest h p.2.2.2.2, t p.1, p.2.2.2.1, p.2.2.2.2) : Bucket)),
      ∃ b₀ ∈ buckets, b.2.2.1 = b₀.2.2.1 ∧ b.2.2.2 = b₀.2.2.2 := by
    intro b hb
    obtain ⟨p, hp, hpb⟩ := List.mem_map.mp hb
    have hp2 : p.2 ∈ buckets := by
      have h2 := List.mem_map_of_mem Prod.snd hp
      rwa [List.enum_map_snd] at h2
    exact ⟨p.2, hp2, by rw [← hpb], by rw [← hpb]⟩
  have hsmem : ∀ b ∈ (buckets.enum.map
      (fun p => ((minhashDigest h p.2.2.2.2, t p.1, p.2.2.2.1, p.2.2.2.2) : Bucket))).insertionSort
        bucketLE, ∃ b₀ ∈ buckets, b.2.2.1 = b₀.2.2.1 ∧ b.2.2.2 = b₀.2.2.2 := by
    intro b hb
    exact hhashed b ((List.perm_insertionSort bucketLE _).mem_iff.mp hb)
  obtain ⟨scores, hsc⟩ := mapM_jaccard_some
    (((buckets.enum.map
        (fun p => ((minhashDigest h p.2.2.2.2, t p.1, p.2.2.2.1, p.2.2.2.2) : Bucket))).insertionSort
          bucketLE).zip
      ((buckets.enum.map
        (fun p => ((minhashDigest h p.2.2.2.2, t p.1, p.2.2.2.1, p.2.2.2.2) : Bucket))).insertionSort
          bucketLE).tail)
    (by
      intro q hq
      obtain ⟨a, b⟩ := q
      obtain ⟨b₀, hb₀, _, hu⟩ := hsmem a (List.of_mem_zip hq).1
      show a.2.2.2 ≠ []
      rw [hu]
      exact hne b₀ hb₀)
  refine ⟨((buckets.enum.map
      (fun p => ((minhashDigest h p.2.2.2.2, t p.1, p.2.2.2.1, p.2.2.2.2) : Bucket))).insertionSort
        bucketLE, scores), ?_, hsmem, ?_⟩
  · simp only [minhash_round]
    rw [hsc]
    rfl
  · intro e he
    obtain ⟨q, hq, hfq⟩ := mapM_some_mem _ _ _ hsc e he
    obtain ⟨s, hjs, hes⟩ := Option.map_eq_some'.mp hfq
    constructor
    · obtain ⟨b₀, hb₀, hdoi, _⟩ := hsmem q.1 (List.of_mem_zip hq).1
      refine ⟨b₀, hb₀, ?_⟩
      rw [← hes, ← hdoi]
    · obtain ⟨b₀, hb₀, hdoi, _⟩ := hsmem q.2
        ((List.tail_sublist _).subset (List.of_mem_zip hq).2)
      refine ⟨b₀, hb₀, ?_⟩
      rw [← hes, ← hdoi]

theorem insertTables_inv (n K : ℕ) (doi : ℕ) (rec : ℤ) (score : ℚ)
    (tables : List (List (ℚ × ℤ)))
    (hlen : tables.length = n)
    (hT : ∀ T ∈ tables, T.length = K ∧ ∀ p ∈ T, 0 ≤ p.2 → p.2.toNat < n)
    (hrec : 0 ≤ rec → rec.toNat < n) :
    (insertTables doi rec score tables).length = n ∧
    ∀ T ∈ insertTables doi rec score tables,
      T.length = K ∧ ∀ p ∈ T, 0 ≤ p.2 → p.2.toNat < n := by
  unfold insertTables
  refine ⟨by rw [List.length_set]; exact hlen, ?_⟩
  rcases Nat.lt_or_ge doi tables.length with hd | hd
  · intro T hTm
    rcases List.mem_or_eq_of_mem_set hTm with h | h
    · exact hT T h
    · have hgetd : tables.getD doi [] = tables[doi] := by
        rw [List.getD_eq_getElem?_getD, List.getElem?_eq_getElem hd]
        rfl
      have hTd := hT tables[doi] (List.getElem_mem hd)
      rw [h, hgetd]
      refine ⟨by rw [insert_rec_length]; exact hTd.1, ?_⟩
      intro p hp
      rcases insert_rec_subset _ p hp with h2 | h2
      · rw [h2]
        exact hrec
      · exact hTd.2 p h2
  · rw [List.set_eq_of_length_le hd]
    exact hT

theorem fold_events_inv (n K : ℕ) :
    ∀ (scores : List (ℕ × ℕ × ℚ)) (tables : List (List (ℚ × ℤ))),
      (∀ e ∈ scores, e.1 < n ∧ e.2.1 < n) →
      tables.length = n →
      (∀ T ∈ tables, T.length = K ∧ ∀ p ∈ T, 0 ≤ p.2 → p.2.toNat < n) →
      (scores.foldl
          (fun tb e =>
            insertTables e.2.1 (e.1 : ℤ) e.2.2 (insertTables e.1 (e.2.1 : ℤ) e.2.2 tb))
          tables).length = n ∧
      ∀ T ∈ scores.foldl
          (fun tb e =>
            insertTables e.2.1 (e.1 : ℤ) e.2.2 (insertTables e.1 (e.2.1 : ℤ) e.2.2 tb))
          tables,
        T.length = K ∧ ∀ p ∈ T, 0 ≤ p.2 → p.2.toNat < n := by
  intro scores
  induction scores with
  | nil => intro tables _ h1 h2; exact ⟨h1, h2⟩
  | cons e es ih =>
    intro tables hs hlen hT
    have he := hs e (List.mem_cons_self _ _)
    have h1 := insertTables_inv n K e.1 (e.2.1 : ℤ) e.2.2 tables hlen hT
      (fun _ => by rw [Int.toNat_natCast]; exact he.2)
    have h2 := insertTables_inv n K e.2.1 (e.1 : ℤ) e.2.2 _ h1.1 h1.2
      (fun _ => by rw [Int.toNat_natCast]; exact he.1)
    rw [List.foldl_cons]
    exact ih _ (fun e' he' => hs e' (List.mem_cons_of_mem _ he')) h2.1 h2.2

theorem foldlM_rounds_spec (n K : ℕ) :
    ∀ (rounds : List Round) (buckets : List Bucket) (tables : List (List (ℚ × ℤ))),
      (∀ b ∈ buckets, b.2.2.2 ≠ [] ∧ b.2.2.1 < n) →
      tables.length = n →
      (∀ T ∈ tables, T.length = K ∧ ∀ p ∈ T, 0 ≤ p.2 → p.2.toNat < n) →
      ∃ st',
        (rounds.foldlM
            (fun st (r : Round) =>
              (minhash_round r.1 r.2 st.1).map
                (fun br =>
                  (br.1,
                    br.2.foldl
                      (fun tb e =>
                        insertTables e.2.1 (e.1 : ℤ) e.2.2
                          (insertTables e.1 (e.2.1 : ℤ) e.2.2 tb))
                      st.2)))
            ((buckets, tables) : List Bucket × List (List (ℚ × ℤ)))) = some st' ∧
        st'.2.length = n ∧
        ∀ T ∈ st'.2, T.length = K ∧ ∀ p ∈ T, 0 ≤ p.2 → p.2.toNat < n := by
  intro rounds
  induction rounds with
  | nil =>
    intro buckets tables _ h1 h2
    exact ⟨(buckets, tables), rfl, h1, h2⟩
  | cons r rs ih =>
    intro buckets tables hb hlen hT
    obtain ⟨out, hout, houtb, houte⟩ :=
      minhash_round_spec r.1 r.2 buckets (fun b h => (hb b h).1)
    have houtinv : ∀ b ∈ out.1, b.2.2.2 ≠ [] ∧ b.2.2.1 < n := by
      intro b hbm
      obtain ⟨b₀, hb₀, hdoi, hu⟩ := houtb b hbm
      exact ⟨hu ▸ (hb b₀ hb₀).1, hdoi ▸ (hb b₀ hb₀).2⟩
    have hev : ∀ e ∈ out.2, e.1 < n ∧ e.2.1 < n := by
      intro e hem
      obtain ⟨⟨b₁, hb₁, h1⟩, ⟨b₂, hb₂, h2⟩⟩ := houte e hem
      exact ⟨h1 ▸ (hb b₁ hb₁).2, h2 ▸ (hb b₂ hb₂).2⟩
    have hfold := fold_events_inv n K out.2 tables hev hlen hT
    obtain ⟨st', h1, h2, h3⟩ := ih out.1 _ houtinv hfold.1 hfold.2
    refine ⟨st', ?_, h2, h3⟩
    rw [List.foldlM_cons]
    show ((minhash_round r.1 r.2 buckets).map _ >>= _) = _
    rw [hout]
    exact h1

theorem drain_row_spec (n : ℕ) (tables : List (List (ℚ × ℤ)))
    (hT : ∀ T ∈ tables, ∀ p ∈ T, 0 ≤ p.2 → p.2.toNat < n) :
    ∀ r ∈ drain n tables, r.1 < n ∧ r.2.1 < n ∧ 0 < r.2.2 := by
  intro r hr
  unfold drain at hr
  obtain ⟨doi, hdoi, hrm⟩ := List.mem_flatMap.mp hr
  have hdlt : doi < n := List.mem_range.mp hdoi
  obtain ⟨p, hp, hpr⟩ := List.mem_map.mp hrm
  have hpf := List.mem_filter.mp hp
  have hps : 0 < p.1 ∧ 0 ≤ p.2 := by
    have h := hpf.2
    simp only [Bool.and_eq_true, decide_eq_true_eq] at h
    exact h
  have hpn : p.2.toNat < n := by
    rcases Nat.lt_or_ge doi tables.length with hd | hd
    · have hgetd : tables.getD doi [] = tables[doi] := by
        rw [List.getD_eq_getElem?_getD, List.getElem?_eq_getElem hd]
        rfl
      rw [hgetd] at hpf
      exact hT tables[doi] (List.getElem_mem hd) p hpf.1 hps.2
    · have hgetd : tables.getD doi [] = [] := by
        rw [List.getD_eq_getElem?_getD, List.getElem?_eq_none (by simpa using hd)]
        rfl
      rw [hgetd] at hpf
      exact absurd hpf.1 (List.not_mem_nil _)
  rw [← hpr]
  exact ⟨hdlt, hpn, hps.1⟩

theorem countP_flatMap_blocks {β : Type} (f : ℕ → List (ℕ × β)) (d : ℕ)
    (hkey : ∀ i, ∀ r ∈ f i, r.1 = i) :
    ∀ l : List ℕ, l.Nodup →
      ((l.flatMap f).countP (fun r => decide (r.1 = d))) ≤ (f d).length := by
  intro l
  induction l with
  | nil => intro _; simp
  | cons i l ih =>
    intro hnd
    obtain ⟨hni, hnd'⟩ := List.nodup_cons.mp hnd
    rw [List.flatMap_cons, List.countP_append]
    by_cases hid : i = d
    · have hblock : (f i).countP (fun r => decide (r.1 = d)) ≤ (f d).length := by
        rw [hid]
        exact List.countP_le_length _
      have hrest : (l.flatMap f).countP (fun r => decide (r.1 = d)) = 0 := by
        rw [List.countP_eq_zero]
        intro r hrm
        obtain ⟨j, hj, hrj⟩ := List.mem_flatMap.mp hrm
        have : r.1 = j := hkey j r hrj
        simp only [decide_eq_true_eq]
        rw [this]
        intro hjd
        rw [hjd, ← hid] at hj
        exact hni hj
      omega
    · have hblock : (f i).countP (fun r => decide (r.1 = d)) = 0 := by
        rw [List.countP_eq_zero]
        intro r hrm
        have : r.1 = i := hkey i r hrm
        simp only [decide_eq_true_eq]
        rw [this]
        exact hid
      have hrest := ih hnd'
      omega

theorem drain_countP_le (n K : ℕ) (tables : List (List (ℚ × ℤ)))
    (hT : ∀ T ∈ tables, T.length = K) (d : ℕ) :
    ((drain n tables).countP (fun r => decide (r.1 = d))) ≤ K := by
  unfold drain
  have h := countP_flatMap_blocks
    (fun doi =>
      ((tables.getD doi []).filter (fun p => decide (0 < p.1) && decide (0 ≤ p.2))).map
        (fun p => (doi, p.2.toNat, p.1)))
    d
    (by
      intro i r hr
      obtain ⟨p, hp, hpr⟩ := List.mem_map.mp hr
      rw [← hpr])
    (List.range n) (List.nodup_range n)
  refine le_trans h ?_
  rw [List.length_map]
  refine le_trans (List.length_filter_le _ _) ?_
  rcases Nat.lt_or_ge d tables.length with hd | hd
  · have hgetd : tables.getD d [] = tables[d] := by
      rw [List.getD_eq_getElem?_getD, List.getElem?_eq_getElem hd]
      rfl
    rw [hgetd, hT tables[d] (List.getElem_mem hd)]
  · have hgetd : tables.getD d [] = [] := by
      rw [List.getD_eq_getElem?_getD, List.getElem?_eq_none (by simpa using hd)]
      rfl
    rw [hgetd]
    exact Nat.zero_le K

theorem recommendations_spec (K : ℕ) (rounds : List Round) (edges : List (ℕ × ℕ))
    (n : ℕ) (recs : List (ℕ × ℕ × ℚ))
    (hedge : ∀ e ∈ edges, e.1 < n)
    (hrec : recommendations K rounds edges n = some recs) :
    (∀ r ∈ recs, r.1 < n ∧ r.2.1 < n ∧ 0 < r.2.2) ∧
    (∀ d, (recs.countP (fun r => decide (r.1 = d))) ≤ K) := by
  have hb0 : ∀ b ∈ (grouped Prod.fst edges).map
      (fun g => ((0, 0, g.1, (g.2.map Prod.snd).insertionSort (· ≤ ·)) : Bucket)),
      b.2.2.2 ≠ [] ∧ b.2.2.1 < n := by
    intro b hb
    obtain ⟨g, hg, hgb⟩ := List.mem_map.mp hb
    constructor
    · rw [← hgb]
      show (g.2.map Prod.snd).insertionSort (· ≤ ·) ≠ []
      intro hnil
      apply grouped_snd_ne_nil Prod.fst edges g hg
      have hlen := (List.perm_insertionSort (· ≤ ·) (g.2.map Prod.snd)).length_eq
      rw [hnil] at hlen
      simp only [List.length_nil, List.length_map] at hlen
      exact List.length_eq_zero.mp hlen.symm
    · rw [← hgb]
      show g.1 < n
      have hkey := grouped_key_complete Prod.fst edges
      have hne := grouped_snd_ne_nil Prod.fst edges g hg
      obtain ⟨r0, hr0⟩ := List.exists_mem_of_ne_nil g.2 hne
      have hr0rows : r0 ∈ edges := (grouped_run_sublist Prod.fst edges g hg).subset hr0
      have : r0.1 = g.1 := grouped_run_key Prod.fst edges g hg r0 hr0
      rw [← this]
      exact hedge r0 hr0rows
  obtain ⟨st', h1, h2, h3⟩ := foldlM_rounds_spec n K rounds
    ((grouped Prod.fst edges).map
      (fun g => ((0, 0, g.1, (g.2.map Prod.snd).insertionSort (· ≤ ·)) : Bucket)))
    (List.replicate n (List.replicate K ((0:ℚ), (-1:ℤ)))) hb0
    (List.length_replicate n _)
    (by
      intro T hTm
      have hTeq := List.eq_of_mem_replicate hTm
      rw [hTeq]
      refine ⟨List.length_replicate K _, ?_⟩
      intro p hp
      have hpeq := List.eq_of_mem_replicate hp
      rw [hpeq]
      intro hcon
      exact absurd hcon (by norm_num))
  simp only [recommendations] at hrec
  rw [h1] at hrec
  have hrecs : recs = drain n st'.2 := by
    have h := hrec
    simp only [Option.map_some'] at h
    exact (Option.some.inj h).symm
  rw [hrecs]
  constructor
  · exact drain_row_spec n st'.2 (fun T hTm => (h3 T hTm).2)
  · intro d
    exact drain_countP_le n K st'.2 (fun T hTm => (h3 T hTm).1) d

theorem postprocess_eq (raw_dois : List String) (recs : List (ℕ × ℕ × ℚ))
    (hids : ∀ r ∈ recs, r.1 < raw_dois.length ∧ r.2.1 < raw_dois.length)
    (hne : raw_dois ≠ []) :
    postprocess raw_dois recs =
      some ((grouped Prod.fst
          ((((recs.insertionSort (fun a b => a.2.1 ≤ b.2.1)).map
              (fun p => ((p.1, raw_dois.getD p.2.1 "", p.2.2) : ℕ × String × ℚ))).insertionSort
                (fun a b => a.1 ≤ b.1)).map
            (fun p => (raw_dois.getD p.1 "", p.2)))).map
        (fun g => (g.1, g.2.map (fun p => (p.2.1, p.2.2))))) := by
  have hr1ids : ∀ r ∈ recs.insertionSort (fun a b => a.2.1 ≤ b.2.1),
      r.1 < raw_dois.length ∧ r.2.1 < raw_dois.length := by
    intro r hr
    exact hids r ((List.perm_insertionSort _ recs).mem_iff.mp hr)
  have hu1 : unnumber ((recs.insertionSort (fun a b => a.2.1 ≤ b.2.1)).map
      (fun p => (p.2.1, (p.1, p.2.2)))) raw_dois =
      some (((recs.insertionSort (fun a b => a.2.1 ≤ b.2.1)).map
        (fun p => (p.2.1, (p.1, p.2.2)))).map
          (fun p => (raw_dois.getD p.1 "", p.2))) := by
    refine unnumber_spec _ _ "" ?_ ?_ hne
    · rw [List.map_map]
      exact List.pairwise_map.mpr
        ((List.sorted_insertionSort (fun a b => a.2.1 ≤ b.2.1) recs).imp (fun h => h))
    · intro i hi
      rw [List.map_map] at hi
      obtain ⟨p, hp, hpi⟩ := List.mem_map.mp hi
      rw [← hpi]
      exact (hr1ids p hp).2
  have hr3ids : ∀ p ∈ ((recs.insertionSort (fun a b => a.2.1 ≤ b.2.1)).map
      (fun p => ((p.1, raw_dois.getD p.2.1 "", p.2.2) : ℕ × String × ℚ))).insertionSort
        (fun a b => a.1 ≤ b.1), p.1 < raw_dois.length := by
    intro p hp
    have hp2 := (List.perm_insertionSort _ _).mem_iff.mp hp
    obtain ⟨q, hq, hqp⟩ := List.mem_map.mp hp2
    rw [← hqp]
    exact (hr1ids q hq).1
  have hu2 : unnumber (((recs.insertionSort (fun a b => a.2.1 ≤ b.2.1)).map
      (fun p => ((p.1, raw_dois.getD p.2.1 "", p.2.2) : ℕ × String × ℚ))).insertionSort
        (fun a b => a.1 ≤ b.1)) raw_dois =
      some ((((recs.insertionSort (fun a b => a.2.1 ≤ b.2.1)).map
        (fun p => ((p.1, raw_dois.getD p.2.1 "", p.2.2) : ℕ × String × ℚ))).insertionSort
          (fun a b => a.1 ≤ b.1)).map
            (fun p => (raw_dois.getD p.1 "", p.2))) := by
    refine unnumber_spec _ _ "" ?_ ?_ hne
    · exact List.pairwise_map.mpr
        ((List.sorted_insertionSort (fun a b : ℕ × String × ℚ => a.1 ≤ b.1) _).imp
          (fun h => h))
    · intro i hi
      obtain ⟨p, hp, hpi⟩ := List.mem_map.mp hi
      rw [← hpi]
      exact hr3ids p hp
  have heta : (fun p : ℕ × String × ℚ => (p.1, (p.2.1, p.2.2))) = id := funext (fun p => rfl)
  have hmm : (((recs.insertionSort (fun a b => a.2.1 ≤ b.2.1)).map
        (fun p => (p.2.1, (p.1, p.2.2)))).map
          (fun p => (raw_dois.getD p.1 "", p.2))).map
            (fun p => ((p.2.1, p.1, p.2.2) : ℕ × String × ℚ)) =
      (recs.insertionSort (fun a b => a.2.1 ≤ b.2.1)).map
        (fun p => ((p.1, raw_dois.getD p.2.1 "", p.2.2) : ℕ × String × ℚ)) := by
    rw [List.map_map, List.map_map]
    rfl
  have step1 : postprocess raw_dois recs =
      (match unnumber ((((((recs.insertionSort (fun a b => a.2.1 ≤ b.2.1)).map
          (fun p => (p.2.1, (p.1, p.2.2)))).map
            (fun p => (raw_dois.getD p.1 "", p.2))).map
              (fun p => ((p.2.1, p.1, p.2.2) : ℕ × String × ℚ))).insertionSort
                (fun a b => a.1 ≤ b.1)).map
                  (fun p => (p.1, (p.2.1, p.2.2)))) raw_dois with
        | none => none
        | some r4 => some ((grouped Prod.fst r4).map
            (fun g => (g.1, g.2.map (fun p => (p.2.1, p.2.2)))))) := by
    simp only [postprocess]
    rw [hu1]
  rw [step1, hmm, heta, List.map_id, hu2]

theorem postprocess_spec (K : ℕ) (raw_dois : List String) (recs : List (ℕ × ℕ × ℚ))
    (out : List (String × List (String × ℚ)))
    (hlab : raw_dois.Pairwise (· < ·))
    (hids : ∀ r ∈ recs, r.1 < raw_dois.length ∧ r.2.1 < raw_dois.length)
    (hcount : ∀ d, recs.countP (fun r => decide (r.1 = d)) ≤ K)
    (hpost : postprocess raw_dois recs = some out) :
    (out.map Prod.fst).Pairwise (· < ·) ∧
    (∀ go ∈ out, go.2 ≠ [] ∧ go.2.length ≤ K ∧ (go.2.map Prod.fst).Pairwise (· ≤ ·)) ∧
    (∀ go ∈ out, go.1 ∈ raw_dois) ∧
    (∀ r ∈ recs, raw_dois.getD r.1 "" ∈ out.map Prod.fst) := by
  have hne : raw_dois ≠ [] := by
    intro hnil
    rw [hnil] at hpost
    simp [postprocess, unnumber] at hpost
  have heq := postprocess_eq raw_dois recs hids hne
  rw [heq] at hpost
  have hout := (Option.some.inj hpost).symm
  subst hout
  -- stage facts
  have hr1mem : ∀ p ∈ recs.insertionSort (fun a b => a.2.1 ≤ b.2.1), p ∈ recs :=
    fun p hp => (List.perm_insertionSort _ recs).mem_iff.mp hp
  have hr1ids : ∀ p ∈ recs.insertionSort (fun a b => a.2.1 ≤ b.2.1),
      p.1 < raw_dois.length ∧ p.2.1 < raw_dois.length :=
    fun p hp => hids p (hr1mem p hp)
  have hr1sorted : (recs.insertionSort (fun a b => a.2.1 ≤ b.2.1)).Pairwise
      (fun a b => a.2.1 ≤ b.2.1) := List.sorted_insertionSort _ recs
  have hr3memmap : ∀ p ∈ ((recs.insertionSort (fun a b => a.2.1 ≤ b.2.1)).map
      (fun p => ((p.1, raw_dois.getD p.2.1 "", p.2.2) : ℕ × String × ℚ))).insertionSort
        (fun a b => a.1 ≤ b.1),
      p ∈ (recs.insertionSort (fun a b => a.2.1 ≤ b.2.1)).map
        (fun p => ((p.1, raw_dois.getD p.2.1 "", p.2.2) : ℕ × String × ℚ)) :=
    fun p hp => (List.perm_insertionSort _ _).mem_iff.mp hp
  have hr3ids : ∀ p ∈ ((recs.insertionSort (fun a b => a.2.1 ≤ b.2.1)).map
      (fun p => ((p.1, raw_dois.getD p.2.1 "", p.2.2) : ℕ × String × ℚ))).insertionSort
        (fun a b => a.1 ≤ b.1), p.1 < raw_dois.length := by
    intro p hp
    obtain ⟨q, hq, hqp⟩ := List.mem_map.mp (hr3memmap p hp)
    rw [← hqp]
    exact (hr1ids q hq).1
  have hr3sorted : (((recs.insertionSort (fun a b => a.2.1 ≤ b.2.1)).map
      (fun p => ((p.1, raw_dois.getD p.2.1 "", p.2.2) : ℕ × String × ℚ))).insertionSort
        (fun a b => a.1 ≤ b.1)).Pairwise (fun a b => a.1 ≤ b.1) :=
    List.sorted_insertionSort _ _
  -- two-key stability through the second sort
  have hP3 : (((recs.insertionSort (fun a b => a.2.1 ≤ b.2.1)).map
      (fun p => ((p.1, raw_dois.getD p.2.1 "", p.2.2) : ℕ × String × ℚ))).insertionSort
        (fun a b => a.1 ≤ b.1)).Pairwise
      (fun a b => a.1 = b.1 → a.2.1 ≤ b.2.1) := by
    have hl : ((recs.insertionSort (fun a b => a.2.1 ≤ b.2.1)).map
        (fun p => ((p.1, raw_dois.getD p.2.1 "", p.2.2) : ℕ × String × ℚ))).Pairwise
        (fun a b => a.2.1 ≤ b.2.1) := by
      refine List.pairwise_map.mpr (hr1sorted.imp_of_mem ?_)
      intro a b ha hb hab
      exact sorted_getD_le hlab hab (hr1ids b hb).2 ""
    exact insertionSort_two_key Prod.fst (fun a b : ℕ × String × ℚ => a.2.1 ≤ b.2.1) _ hl
  -- R4: label column ascending, and the per-item two-key order
  have hR4sorted : (((((recs.insertionSort (fun a b => a.2.1 ≤ b.2.1)).map
      (fun p => ((p.1, raw_dois.getD p.2.1 "", p.2.2) : ℕ × String × ℚ))).insertionSort
        (fun a b => a.1 ≤ b.1)).map
      (fun p => (raw_dois.getD p.1 "", p.2))).map Prod.fst).Pairwise (· ≤ ·) := by
    rw [List.map_map]
    refine List.pairwise_map.mpr (hr3sorted.imp_of_mem ?_)
    intro a b ha hb hab
    exact sorted_getD_le hlab hab (hr3ids b hb) ""
  have hP4 : ((((recs.insertionSort (fun a b => a.2.1 ≤ b.2.1)).map
      (fun p => ((p.1, raw_dois.getD p.2.1 "", p.2.2) : ℕ × String × ℚ))).insertionSort
        (fun a b => a.1 ≤ b.1)).map
      (fun p => (raw_dois.getD p.1 "", p.2))).Pairwise
      (fun a b => a.1 = b.1 → a.2.1 ≤ b.2.1) := by
    refine List.pairwise_map.mpr (hP3.imp_of_mem ?_)
    intro a b ha hb hab h
    exact hab (sorted_getD_inj hlab (hr3ids a ha) (hr3ids b hb) "" h)
  refine ⟨?_, ?_, ?_, ?_⟩
  · -- outer keys strictly ascending
    rw [List.map_map]
    exact grouped_keys_lt Prod.fst _ hR4sorted
  · -- per-record facts
    intro go hgo
    obtain ⟨g, hg, hggo⟩ := List.mem_map.mp hgo
    have hgne := grouped_snd_ne_nil Prod.fst _ g hg
    obtain ⟨p₀, hp₀⟩ := List.exists_mem_of_ne_nil g.2 hgne
    have hp₀R4 := (grouped_run_sublist Prod.fst _ g hg).subset hp₀
    have hp₀key := grouped_run_key Prod.fst _ g hg p₀ hp₀
    obtain ⟨q₀, hq₀, hq₀p⟩ := List.mem_map.mp hp₀R4
    have hd₀ : q₀.1 < raw_dois.length := hr3ids q₀ hq₀
    have hg1 : g.1 = raw_dois.getD q₀.1 "" := by rw [← hp₀key, ← hq₀p]
    refine ⟨?_, ?_, ?_⟩
    · rw [← hggo]
      simp only [ne_eq, List.map_eq_nil_iff]
      exact hgne
    · rw [← hggo]
      show (g.2.map (fun p => (p.2.1, p.2.2))).length ≤ K
      rw [List.length_map]
      have h1 := grouped_run_count Prod.fst _ g hg
      have h2 : (((((recs.insertionSort (fun a b => a.2.1 ≤ b.2.1)).map
          (fun p => ((p.1, raw_dois.getD p.2.1 "", p.2.2) : ℕ × String × ℚ))).insertionSort
            (fun a b => a.1 ≤ b.1)).map
          (fun p => (raw_dois.getD p.1 "", p.2))).countP
            (fun r => decide (r.1 = g.1))) ≤ K := by
        rw [List.countP_map, (List.perm_insertionSort _ _).countP_eq, List.countP_map,
          (List.perm_insertionSort _ _).countP_eq]
        rw [List.countP_congr (q := fun r => decide (r.1 = q₀.1)) ?_]
        · exact hcount q₀.1
        · intro r hr
          show decide (raw_dois.getD r.1 "" = g.1) = true ↔ decide (r.1 = q₀.1) = true
          rw [decide_eq_true_eq, decide_eq_true_eq, hg1]
          constructor
          · intro h
            exact sorted_getD_inj hlab (hids r hr).1 hd₀ "" h
          · intro h
            rw [h]
      omega
    · rw [← hggo]
      show ((g.2.map (fun p => (p.2.1, p.2.2))).map Prod.fst).Pairwise (· ≤ ·)
      rw [List.map_map]
      refine List.pairwise_map.mpr ?_
      have hrun := hP4.sublist (grouped_run_sublist Prod.fst _ g hg)
      refine hrun.imp_of_mem ?_
      intro a b ha hb hab
      exact hab ((grouped_run_key Prod.fst _ g hg a ha).trans
        (grouped_run_key Prod.fst _ g hg b hb).symm)
  · intro go hgo
    obtain ⟨g, hg, hggo⟩ := List.mem_map.mp hgo
    have hgne := grouped_snd_ne_nil Prod.fst _ g hg
    obtain ⟨p₀, hp₀⟩ := List.exists_mem_of_ne_nil g.2 hgne
    have hp₀R4 := (grouped_run_sublist Prod.fst _ g hg).subset hp₀
    have hp₀key := grouped_run_key Prod.fst _ g hg p₀ hp₀
    obtain ⟨q₀, hq₀, hq₀p⟩ := List.mem_map.mp hp₀R4
    have hd₀ : q₀.1 < raw_dois.length := hr3ids q₀ hq₀
    have hg1 : g.1 = raw_dois.getD q₀.1 "" := by rw [← hp₀key, ← hq₀p]
    rw [← hggo]
    show g.1 ∈ raw_dois
    rw [hg1]
    exact getD_mem hd₀ ""
  · intro r hr
    have h1 : ((r.1, raw_dois.getD r.2.1 "", r.2.2) : ℕ × String × ℚ) ∈
        (recs.insertionSort (fun a b => a.2.1 ≤ b.2.1)).map
          (fun p => ((p.1, raw_dois.getD p.2.1 "", p.2.2) : ℕ × String × ℚ)) :=
      List.mem_map_of_mem _ ((List.perm_insertionSort _ recs).mem_iff.mpr hr)
    have h2 : ((r.1, raw_dois.getD r.2.1 "", r.2.2) : ℕ × String × ℚ) ∈
        ((recs.insertionSort (fun a b => a.2.1 ≤ b.2.1)).map
          (fun p => ((p.1, raw_dois.getD p.2.1 "", p.2.2) : ℕ × String × ℚ))).insertionSort
            (fun a b => a.1 ≤ b.1) :=
      (List.perm_insertionSort _ _).mem_iff.mpr h1
    have h3 := List.mem_map_of_mem (fun p => ((raw_dois.getD p.1 "", p.2) : String × String × ℚ)) h2
    have h4 := grouped_key_complete Prod.fst _ _ h3
    rw [List.map_map]
    exact h4

/-- C2, counterexample to "each inner list sorted descending by score": with two
slots, one round (hash constant 0, tiebreaks ordering the buckets a, c, b) on
the log {u1: a b c, u2: b c}, the run outputs item "c" with inner list
[("a", 1/2), ("b", 1)] — ascending in score. The restoration path sorts rows by
candidate id, then stably by item id, so inner lists end up ordered by candidate
key, not by score. -/
theorem C2_counterexample :
    main_run 2
        [(fun _ => (0:ℤ), fun i => if i = 0 then (0:ℚ) else if i = 1 then 1 else mkRat 1 2)]
        [[("u1","a"),("u1","b"),("u2","b"),("u1","c"),("u2","c")]] =
      some [("a", [("c", mkRat 1 2)]), ("b", [("c", 1)]),
        ("c", [("a", mkRat 1 2), ("b", 1)])] ∧
    ¬ (([("a", mkRat 1 2), ("b", (1:ℚ))].map Prod.snd).Pairwise (· ≥ ·)) :=
  ⟨by decide, by decide⟩

/-- C2 (amended): whenever the run completes, the output is ordered strictly
ascending by item key and each inner candidate list holds at most K entries;
but the inner lists are sorted ascending by candidate key (sort by candidate id,
then a stable sort by item id, then monotone label restoration), not descending
by score. -/
theorem C2_output_order (K : ℕ) (rounds : List Round)
    (files : List (List (String × String)))
    (out : List (String × List (String × ℚ)))
    (hrun : main_run K rounds files = some out) :
    (out.map Prod.fst).Pairwise (· < ·) ∧
    ∀ g ∈ out, g.2.length ≤ K ∧ (g.2.map Prod.fst).Pairwise (· ≤ ·) := by
  simp only [main_run] at hrun
  cases hrec : recommendations K rounds (preprocess files.flatten).2
      (preprocess files.flatten).1.length with
  | none =>
    rw [hrec] at hrun
    exact Option.noConfusion hrun
  | some recs =>
    rw [hrec] at hrun
    have hpost : postprocess (preprocess files.flatten).1 recs = some out := hrun
    have hlab : (preprocess files.flatten).1.Pairwise (· < ·) := by
      show (stash.sorted strLE (files.flatten.map Prod.snd)).Pairwise (· < ·)
      exact stash_sorted_strLE_pairwise_lt _
    obtain ⟨hrow, hcount⟩ := recommendations_spec K rounds (preprocess files.flatten).2
      (preprocess files.flatten).1.length recs (preprocess_fst_lt files.flatten) hrec
    have hids : ∀ r ∈ recs, r.1 < (preprocess files.flatten).1.length ∧
        r.2.1 < (preprocess files.flatten).1.length :=
      fun r hr => ⟨(hrow r hr).1, (hrow r hr).2.1⟩
    obtain ⟨h1, h2, _, _⟩ := postprocess_spec K (preprocess files.flatten).1 recs out
      hlab hids hcount hpost
    exact ⟨h1, fun g hgm => ⟨(h2 g hgm).2.1, (h2 g hgm).2.2⟩⟩

/-- Witness for C2_output_order on a concrete three-item run. -/
theorem C2_output_order_witness :
    (main_run 2
        [(fun _ => (0:ℤ), fun i => if i = 0 then (0:ℚ) else if i = 1 then 1 else mkRat 1 2)]
        [[("u1","a"),("u1","b"),("u2","b"),("u1","c"),("u2","c")]] =
      some [("a", [("c", mkRat 1 2)]), ("b", [("c", 1)]),
        ("c", [("a", mkRat 1 2), ("b", 1)])]) ∧
    (([("a", [("c", mkRat 1 2)]), ("b", [("c", 1)]),
        ("c", [("a", mkRat 1 2), ("b", (1:ℚ))])].map Prod.fst).Pairwise (· < ·) ∧
      ∀ g ∈ [("a", [("c", mkRat 1 2)]), ("b", [("c", 1)]),
        ("c", [("a", mkRat 1 2), ("b", (1:ℚ))])],
        g.2.length ≤ 2 ∧ (g.2.map Prod.fst).Pairwise (· ≤ ·)) :=
  ⟨by decide,
    C2_output_order 2
      [(fun _ => (0:ℤ), fun i => if i = 0 then (0:ℚ) else if i = 1 then 1 else mkRat 1 2)]
      [[("u1","a"),("u1","b"),("u2","b"),("u1","c"),("u2","c")]]
      [("a", [("c", mkRat 1 2)]), ("b", [("c", 1)]),
        ("c", [("a", mkRat 1 2), ("b", 1)])]
      (by decide)⟩

/-- C5, counterexample: item "a" appears in the interaction log, yet the run
(one genuine minhash round, two slots) emits no record for it — a sole item is
never adjacent to anything, its slots keep score 0, and drain discards them. -/
theorem C5_counterexample :
    main_run 2 [(fun _ => (0:ℤ), fun _ => (0:ℚ))] [[("u1", "a")]] = some [] ∧
    "a" ∈ [[("u1", "a")]].flatten.map Prod.snd ∧
    "a" ∉ (([] : List (String × List (String × ℚ))).map Prod.fst) :=
  ⟨by decide, by decide, by decide⟩

/-- C5 (amended): not every item of the log receives an output record. What does
hold: every output record's key is an item key occurring in the log, and every
output record carries at least one candidate — an item with no positive-score
stored candidate is omitted entirely rather than emitted with an empty list. -/
theorem C5_item_records (K : ℕ) (rounds : List Round)
    (files : List (List (String × String)))
    (out : List (String × List (String × ℚ)))
    (hrun : main_run K rounds files = some out) :
    ∀ g ∈ out, g.1 ∈ files.flatten.map Prod.snd ∧ g.2 ≠ [] := by
  simp only [main_run] at hrun
  cases hrec : recommendations K rounds (preprocess files.flatten).2
      (preprocess files.flatten).1.length with
  | none =>
    rw [hrec] at hrun
    exact Option.noConfusion hrun
  | some recs =>
    rw [hrec] at hrun
    have hpost : postprocess (preprocess files.flatten).1 recs = some out := hrun
    have hlab : (preprocess files.flatten).1.Pairwise (· < ·) := by
      show (stash.sorted strLE (files.flatten.map Prod.snd)).Pairwise (· < ·)
      exact stash_sorted_strLE_pairwise_lt _
    obtain ⟨hrow, hcount⟩ := recommendations_spec K rounds (preprocess files.flatten).2
      (preprocess files.flatten).1.length recs (preprocess_fst_lt files.flatten) hrec
    have hids : ∀ r ∈ recs, r.1 < (preprocess files.flatten).1.length ∧
        r.2.1 < (preprocess files.flatten).1.length :=
      fun r hr => ⟨(hrow r hr).1, (hrow r hr).2.1⟩
    obtain ⟨_, h2, h3, _⟩ := postprocess_spec K (preprocess files.flatten).1 recs out
      hlab hids hcount hpost
    intro g hg
    refine ⟨?_, (h2 g hg).1⟩
    have hmem := h3 g hg
    have hmem2 : g.1 ∈ stash.sorted strLE (files.flatten.map Prod.snd) := hmem
    rw [stash_sorted_mem] at hmem2
    exact hmem2

/-- Witness for C5_item_records on a concrete three-item run (in which item "a"
is in fact dropped: its only adjacency scores 0). -/
theorem C5_item_records_witness :
    (main_run 2
        [(fun _ => (0:ℤ), fun i => if i = 0 then (0:ℚ) else if i = 1 then 1 else mkRat 1 2)]
        [[("u1","a"),("u1","b"),("u2","b"),("u2","c")]] =
      some [("b", [("c", mkRat 1 2)]), ("c", [("b", mkRat 1 2)])]) ∧
    ∀ g ∈ [("b", [("c", mkRat 1 2)]), ("c", [("b", (mkRat 1 2 : ℚ))])],
      g.1 ∈ [[("u1","a"),("u1","b"),("u2","b"),("u2","c")]].flatten.map Prod.snd ∧
      g.2 ≠ [] :=
  ⟨by decide,
    C5_item_records 2
      [(fun _ => (0:ℤ), fun i => if i = 0 then (0:ℚ) else if i = 1 then 1 else mkRat 1 2)]
      [[("u1","a"),("u1","b"),("u2","b"),("u2","c")]]
      [("b", [("c", mkRat 1 2)]), ("c", [("b", mkRat 1 2)])]
      (by decide)⟩
